import Mathlib

/-!
A shallow embedding of `sais.c` (the SA-IS suffix array construction core of
dsnet/compress, after Yuta Mori's sais), together with proofs about it.

Modelling conventions:
* C `int` values are modelled as unbounded `Int` (all quantities handled by
  the routine fit easily in 32 bits for the admissible inputs; overflow is out
  of scope of the claims).
* The input sequence `T` is a `List Int`; `chr(a)` reads it (out of range
  gives 0, which the C code never does on valid inputs).  The element width
  `cs` only selects the machine representation in C, so the embedding reads a
  mathematical sequence and keeps `cs` as an inert parameter.
* The output/workspace array `SA` is modelled as a total map `Int → Int`
  (initially all zero outside the caller-initialised part); the scratch
  buffers `C`, `B`, `D` are either regions of `SA` (tail offsets) or
  separately allocated heap blocks, captured by the `Loc` type.  This models
  the aliasing regimes of the C code faithfully (including `C == B`), and
  the recursive call works in place on the same array exactly as in C.
* The bitwise complement `~j` of C is `intNot j = -j - 1`.
* Every loop is expressed by structural recursion (so the kernel can evaluate
  concrete runs): loops whose index moves by exactly one step recurse on the
  index as a `Nat`; loops whose index jumps take an iteration budget that the
  call site fixes at a value provably at or above the exact iteration count,
  so on every input the behaviour coincides with the C loop.  A few C loops
  whose termination relies on data invariants get an index bound taken from
  the C assertions (noted locally); on invariant-respecting states the
  behaviour is identical.
* `malloc` is modelled by an allocator with a failure oracle (`List Bool`,
  exhausted oracle = success) so that out-of-memory paths can be examined.
  Allocation, free and recursion events are recorded in a ghost event list.
-/

/-- Bitwise complement of C (`~j`). -/
def intNot (j : Int) : Int := -j - 1

/-- Read the input sequence at an `Int` index (`chr`); out of range gives 0
(the C code never does this on valid inputs). -/
def getI (l : List Int) (i : Int) : Int :=
  if i < 0 then 0 else l.getD i.toNat 0

/-- A buffer is a total map from indexes to contents. -/
abbrev Buf := Int → Int

/-- Point update of a buffer. -/
def bset (f : Buf) (i v : Int) : Buf := fun x => if x = i then v else f x

/-- Location of a scratch buffer: a tail region of `SA` (offset) or a heap
block (id). -/
inductive Loc where
  | sa (off : Int)
  | heap (id : Nat)
deriving DecidableEq, Repr

/-- The memory: the caller-provided array `SA` plus heap blocks (by id). -/
structure Mem where
  sa : Buf
  heap : Nat → Buf

/-- Read element `i` of the buffer at `l`. -/
def Mem.rd (m : Mem) (l : Loc) (i : Int) : Int :=
  match l with
  | .sa off => m.sa (off + i)
  | .heap id => m.heap id i

/-- Write element `i` of the buffer at `l`. -/
def Mem.wr (m : Mem) (l : Loc) (i v : Int) : Mem :=
  match l with
  | .sa off => { m with sa := bset m.sa (off + i) v }
  | .heap id => { m with heap := fun x => if x = id then bset (m.heap id) i v else m.heap x }

/-- Write `SA[i] = v` (the `SA` array itself always sits at offset 0). -/
def saW (m : Mem) (i v : Int) : Mem := { m with sa := bset m.sa i v }

/-- Ascending `for` loop running exactly `cnt` iterations from index `i`:
`for (x = i; x < i + cnt; ++x) s = f x s`. -/
def upFor {α : Type} : Nat → Int → α → (Int → α → α) → α
  | 0, _, s, _ => s
  | c + 1, i, s, f => upFor c (i + 1) (f i s) f

/-- Descending `for` loop running exactly `cnt` iterations from index `i`:
`for (x = i; i - cnt < x; --x) s = f x s`. -/
def downFor {α : Type} : Nat → Int → α → (Int → α → α) → α
  | 0, _, s, _ => s
  | c + 1, i, s, f => downFor c (i - 1) (f i s) f

theorem upFor_invariant {α : Type} (P : α → Prop) (c : Nat) (i : Int) (s : α)
    (f : Int → α → α) (hf : ∀ x t, P t → P (f x t)) (hs : P s) : P (upFor c i s f) := by
  induction c generalizing i s with
  | zero => exact hs
  | succ c ih => exact ih (i + 1) (f i s) (hf i s hs)

theorem downFor_invariant {α : Type} (P : α → Prop) (c : Nat) (i : Int) (s : α)
    (f : Int → α → α) (hf : ∀ x t, P t → P (f x t)) (hs : P s) : P (downFor c i s f) := by
  induction c generalizing i s with
  | zero => exact hs
  | succ c ih => exact ih (i - 1) (f i s) (hf i s hs)

/-- `getCounts(T, C, n, k, cs)`: zero `C[0..k)` then count symbol occurrences. -/
def getCounts (T : List Int) (C : Loc) (n k : Int) (mem : Mem) : Mem :=
  let mem1 := upFor k.toNat 0 mem (fun i m => m.wr C i 0)
  upFor n.toNat 0 mem1 (fun i m => m.wr C (getI T i) (m.rd C (getI T i) + 1))

/-- `getBuckets(C, B, k, end)`: bucket start (`end = false`) or end
(`end = true`) pointers.  Correct under `C = B` aliasing exactly as in C. -/
def getBuckets (C B : Loc) (k : Int) (endB : Bool) (mem : Mem) : Mem :=
  (upFor k.toNat 0 (mem, (0 : Int)) (fun i s =>
    let sum := s.2 + s.1.rd C i
    if endB then (s.1.wr B i sum, sum)
    else (s.1.wr B i (sum - s.1.rd C i), sum))).1

/-- The right-to-left descending skip
`do { c1 = c0; } while ((0 <= --i) && ((c0 = chr(i)) >= c1));`
starting at index `i` (as a `Nat`), returning the final `(i, c0)`. -/
def skipDown (T : List Int) : Nat → Int → Int × Int
  | 0, c0 => (-1, c0)
  | i + 1, c0 =>
    let c0' := getI T i
    if c0 ≤ c0' then skipDown T i c0' else ((i : Int), c0')

/-- The right-to-left ascending skip
`do { c1 = c0; } while ((0 <= --i) && ((c0 = chr(i)) <= c1));`. -/
def skipUp (T : List Int) : Nat → Int → Int × Int
  | 0, c0 => (-1, c0)
  | i + 1, c0 =>
    let c0' := getI T i
    if c0' ≤ c0 then skipUp T i c0' else ((i : Int), c0')

theorem skipDown_le (T : List Int) (i : Nat) (c0 : Int) :
    (skipDown T i c0).1 ≤ (i : Int) - 1 := by
  induction i generalizing c0 with
  | zero => simp [skipDown]
  | succ i ih =>
    unfold skipDown
    dsimp only
    split
    · exact le_trans (ih _) (by push_cast; omega)
    · simp

theorem skipUp_le (T : List Int) (i : Nat) (c0 : Int) :
    (skipUp T i c0).1 ≤ (i : Int) - 1 := by
  induction i generalizing c0 with
  | zero => simp [skipUp]
  | succ i ih =>
    unfold skipUp
    dsimp only
    split
    · exact le_trans (ih _) (by push_cast; omega)
    · simp

/-- State of the Stage 1 LMS discovery scan: memory, the pending slot `b`
(`none` models the dummy target `&t`), the previous mark `j` and the count `m`. -/
structure Scan1 where
  mem : Mem
  b : Option Int
  j : Int
  m : Int

/-- The `for (; 0 <= i;)` loop of the Stage 1 discovery scan (sais.c:422-437).
On discovery of an ascending-run boundary at `i` (with `c1 = chr(i+1)`),
writes `*b = j`, reserves the new slot `b = SA + --B[c1]`, sets `j = i`,
increments `m`, and skips the next descending run.  The iteration budget is
fixed by the caller above the exact iteration count. -/
def scan1Outer (T : List Int) (B : Loc) : Nat → Scan1 → Int → Int → Scan1
  | 0, st, _, _ => st
  | fuel + 1, st, i, c0 =>
    if 0 ≤ i then
      let p := skipUp T i.toNat c0
      if 0 ≤ p.1 then
        let c1 := getI T (p.1 + 1)
        let mem := match st.b with
          | none => st.mem
          | some off => saW st.mem off st.j
        let mem := mem.wr B c1 (mem.rd B c1 - 1)
        let b := some (mem.rd B c1)
        let q := skipDown T p.1.toNat p.2
        scan1Outer T B fuel ⟨mem, b, p.1, st.m + 1⟩ q.1 q.2
      else st
    else st

/-- Stage 1 discovery (sais.c:410-437): zero `SA[0..n)`, then scan `T` right to
left counting the LMS positions and reserving their provisional slots at the
ends of the buckets of their successor characters (`B` must hold bucket ends). -/
def stage1Scan (T : List Int) (B : Loc) (n : Int) (mem0 : Mem) : Scan1 :=
  let mem := upFor n.toNat 0 mem0 (fun i m => saW m i 0)
  let c0 := getI T (n - 1)
  let q := skipDown T (n - 1).toNat c0
  scan1Outer T B (n + 1).toNat ⟨mem, none, n, 0⟩ q.1 q.2

/-- `sortLMS1` (sais.c:66-113): single-pass induced sort of the LMS
substrings.  State threaded through the scans: `(mem, b, c1)`. -/
def sortLMS1 (T : List Int) (C B : Loc) (n k : Int) (mem0 : Mem) : Mem :=
  -- Compute SAl.
  let mem := if C = B then getCounts T C n k mem0 else mem0
  let mem := getBuckets C B k false mem
  let j0 := n - 1
  let c1 := getI T j0
  let b := mem.rd B c1
  let j0 := j0 - 1
  let mem := saW mem b (if getI T j0 < c1 then intNot j0 else j0)
  let b := b + 1
  let s1 := upFor n.toNat 0 (mem, b, c1) (fun i s =>
    let (mem, b, c1) := s
    let j := mem.sa i
    if 0 < j then
      let c0 := getI T j
      let (mem, b, c1) :=
        if c0 ≠ c1 then
          let mem := mem.wr B c1 b
          (mem, mem.rd B c0, c0)
        else (mem, b, c1)
      let j := j - 1
      let mem := saW mem b (if getI T j < c1 then intNot j else j)
      let mem := saW mem i 0
      (mem, b + 1, c1)
    else if j < 0 then (saW mem i (intNot j), b, c1)
    else (mem, b, c1))
  -- Compute SAs.
  let mem := s1.1
  let mem := if C = B then getCounts T C n k mem else mem
  let mem := getBuckets C B k true mem
  let s2 := downFor n.toNat (n - 1) (mem, mem.rd B 0, (0 : Int)) (fun i s =>
    let (mem, b, c1) := s
    let j := mem.sa i
    if 0 < j then
      let c0 := getI T j
      let (mem, b, c1) :=
        if c0 ≠ c1 then
          let mem := mem.wr B c1 b
          (mem, mem.rd B c0, c0)
        else (mem, b, c1)
      let j := j - 1
      let b := b - 1
      let mem := saW mem b (if c1 < getI T j then intNot (j + 1) else j)
      let mem := saW mem i 0
      (mem, b, c1)
    else (mem, b, c1))
  s2.1

/-- Compaction loop `for (i = 0; (p = SA[i]) < 0; ++i) SA[i] = ~p;` of
`postProcLMS1` (sais.c:123-126).  The index is additionally bounded by the
iteration budget (`n` at the call, matching the C assertion `(i+1) < n`),
since the C loop relies on the data invariant that a non-negative entry
exists. -/
def ppl1A : Nat → Buf → Int → Buf × Int
  | 0, sa, i => (sa, i)
  | c + 1, sa, i =>
    if sa i < 0 then ppl1A c (bset sa i (intNot (sa i))) (i + 1) else (sa, i)

/-- Compaction loop (sais.c:127-138), collecting the remaining negative
entries until `j` reaches `m`; same additional bound as `ppl1A`. -/
def ppl1B : Nat → Buf → Int → Int → Int → Buf
  | 0, sa, _, _, _ => sa
  | c + 1, sa, i, j, m =>
    if sa i < 0 then
      let sa1 := bset sa j (intNot (sa i))
      let sa2 := bset sa1 i 0
      if j + 1 = m then sa2 else ppl1B c sa2 (i + 1) (j + 1) m
    else ppl1B c sa (i + 1) j m

/-- Substring length recording scan of `postProcLMS1` (sais.c:148-161):
`SA[m + ((i+1)>>1)] = j - i; j = i + 1;` at each ascending-run exit. -/
def ppl1C (T : List Int) (m : Int) : Nat → Buf → Int → Int → Int → Buf
  | 0, sa, _, _, _ => sa
  | fuel + 1, sa, i, j, c0 =>
    if 0 ≤ i then
      let p := skipUp T i.toNat c0
      if 0 ≤ p.1 then
        let sa1 := bset sa (m + (p.1 + 1) / 2) (j - p.1)
        let q := skipDown T p.1.toNat p.2
        ppl1C T m fuel sa1 q.1 (p.1 + 1) q.2
      else sa
    else sa

/-- Character comparison loop of the naming pass (sais.c:167), running for at
most `plen` steps. -/
def cmpLoop (T : List Int) (p q : Int) : Nat → Int → Int
  | 0, j => j
  | c + 1, j => if getI T (p + j) = getI T (q + j) then cmpLoop T p q c (j + 1) else j

/-- Naming pass of `postProcLMS1` (sais.c:164-176). -/
def ppl1D (T : List Int) (n m : Int) (sa0 : Buf) : Buf × Int :=
  let r := upFor m.toNat 0 (sa0, (0 : Int), n, (0 : Int)) (fun i s =>
    let (sa, name, q, qlen) := s
    let p := sa i
    let plen := sa (m + p / 2)
    let diff : Bool :=
      if plen = qlen ∧ q + plen < n then cmpLoop T p q plen.toNat 0 ≠ plen else true
    if diff then (bset sa (m + p / 2) (name + 1), name + 1, p, plen)
    else (bset sa (m + p / 2) name, name, q, qlen))
  (r.1, r.2.1)

/-- `postProcLMS1` (sais.c:115-179): compact the sorted LMS entries into
`SA[0..m)`, record substring lengths, and assign lexicographic names.
Returns the updated `SA` and `name`. -/
def postProcLMS1 (T : List Int) (n m : Int) (sa0 : Buf) : Buf × Int :=
  let pA := ppl1A n.toNat sa0 0
  let sa := if pA.2 < m then ppl1B n.toNat pA.1 (pA.2 + 1) pA.2 m else pA.1
  let c0 := getI T (n - 1)
  let q := skipDown T (n - 1).toNat c0
  let sa := ppl1C T m (n + 1).toNat sa q.1 (n - 1) q.2
  ppl1D T n m sa

/-- Inner rescan of the flag-fixup loop of `LMSsort2` (sais.c:223):
`for (j = i - 1; SA[j] < n; --j) { }`, examining index `j - 1` in the
representation below, with an added `0 ≤ j` bound (the C loop relies on a
flagged entry existing to the left). -/
def lms2FixScan (sa : Buf) (n : Int) : Nat → Int
  | 0 => -1
  | j + 1 => if sa j < n then lms2FixScan sa n j else (j : Int)

theorem lms2FixScan_le (sa : Buf) (n : Int) (j : Nat) :
    lms2FixScan sa n j ≤ (j : Int) - 1 := by
  induction j with
  | zero => simp [lms2FixScan]
  | succ j ih =>
    unfold lms2FixScan
    split
    · exact le_trans ih (by push_cast; omega)
    · push_cast; omega

/-- Flag-fixup loop of `LMSsort2` (sais.c:219-228). -/
def lms2Fix (n : Int) : Nat → Buf → Int → Buf
  | 0, sa, _ => sa
  | fuel + 1, sa, i =>
    if 0 ≤ i then
      if 0 < sa i then
        if sa i < n then
          let sa1 := bset sa i (sa i + n)
          let j := lms2FixScan sa1 n i.toNat
          lms2Fix n fuel (bset sa1 j (sa1 j - n)) (j - 1)
        else lms2Fix n fuel sa (i - 1)
      else lms2Fix n fuel sa (i - 1)
    else sa

/-- `LMSsort2` (sais.c:181-255): two-pass induced sort of the LMS substrings
carrying the `+n` change-generation flag governed by `D[0..2k)`. -/
def LMSsort2 (T : List Int) (C B D : Loc) (n k : Int) (mem0 : Mem) : Mem :=
  -- Compute SAl.
  let mem := getBuckets C B k false mem0
  let j0 := n - 1
  let c1 := getI T j0
  let b := mem.rd B c1
  let j0 := j0 - 1
  let t : Int := if getI T j0 < c1 then 1 else 0
  let j0 := j0 + n
  let mem := saW mem b (if t % 2 = 1 then intNot j0 else j0)
  let b := b + 1
  let s1 := upFor n.toNat 0 (mem, b, c1, (0 : Int)) (fun i s =>
    let (mem, b, c1, d) := s
    let j := mem.sa i
    if 0 < j then
      let (d, j) := if n ≤ j then (d + 1, j - n) else (d, j)
      let c0 := getI T j
      let (mem, b, c1) :=
        if c0 ≠ c1 then
          let mem := mem.wr B c1 b
          (mem, mem.rd B c0, c0)
        else (mem, b, c1)
      let j := j - 1
      let t := 2 * c0 + (if getI T j < c1 then 1 else 0)
      let (mem, j) :=
        if mem.rd D t ≠ d then (mem.wr D t d, j + n) else (mem, j)
      let mem := saW mem b (if t % 2 = 1 then intNot j else j)
      let mem := saW mem i 0
      (mem, b + 1, c1, d)
    else if j < 0 then (saW mem i (intNot j), b, c1, d)
    else (mem, b, c1, d))
  let mem := { s1.1 with sa := lms2Fix n (n.toNat + 1) s1.1.sa (n - 1) }
  let d := s1.2.2.2
  -- Compute SAs.
  let mem := getBuckets C B k true mem
  let s2 := downFor n.toNat (n - 1) (mem, mem.rd B 0, (0 : Int), d + 1) (fun i s =>
    let (mem, b, c1, d) := s
    let j := mem.sa i
    if 0 < j then
      let (d, j) := if n ≤ j then (d + 1, j - n) else (d, j)
      let c0 := getI T j
      let (mem, b, c1) :=
        if c0 ≠ c1 then
          let mem := mem.wr B c1 b
          (mem, mem.rd B c0, c0)
        else (mem, b, c1)
      let j := j - 1
      let t := 2 * c0 + (if c1 < getI T j then 1 else 0)
      let (mem, j) :=
        if mem.rd D t ≠ d then (mem.wr D t d, j + n) else (mem, j)
      let b := b - 1
      let mem := saW mem b (if t % 2 = 1 then intNot (j + 1) else j)
      let mem := saW mem i 0
      (mem, b, c1, d)
    else (mem, b, c1, d))
  s2.1

/-- First compaction loop of `postProcLMS2` (sais.c:262-269), with the added
iteration bound (`n`, matching the C assertion). -/
def ppl2A (n : Int) : Nat → Buf → Int → Int → Buf × Int × Int
  | 0, sa, i, name => (sa, i, name)
  | c + 1, sa, i, name =>
    if sa i < 0 then
      let j := intNot (sa i)
      let name1 := if n ≤ j then name + 1 else name
      ppl2A n c (bset sa i j) (i + 1) name1
    else (sa, i, name)

/-- Second compaction loop of `postProcLMS2` (sais.c:270-285). -/
def ppl2B (n : Int) : Nat → Buf → Int → Int → Int → Int → Buf × Int
  | 0, sa, _, _, _, name => (sa, name)
  | c + 1, sa, i, d, m, name =>
    if sa i < 0 then
      let j := intNot (sa i)
      let name1 := if n ≤ j then name + 1 else name
      let sa1 := bset sa d j
      let sa2 := bset sa1 i 0
      if d + 1 = m then (sa2, name1) else ppl2B n c sa2 (i + 1) (d + 1) m name1
    else ppl2B n c sa (i + 1) d m name

/-- `postProcLMS2` (sais.c:257-306). -/
def postProcLMS2 (n m : Int) (sa0 : Buf) : Buf × Int :=
  let pA := ppl2A n n.toNat sa0 0 0
  let p :=
    if pA.2.1 < m then ppl2B n n.toNat pA.1 (pA.2.1 + 1) pA.2.1 m pA.2.2
    else (pA.1, pA.2.2)
  let sa := p.1
  let name := p.2
  if name < m then
    -- Store the lexicographic names.
    let r := downFor m.toNat (m - 1) (sa, name + 1) (fun i s =>
      let (sa, d) := s
      let j := sa i
      let (j, d) := if n ≤ j then (j - n, d - 1) else (j, d)
      (bset sa (m + j / 2) d, d))
    (r.1, name)
  else
    -- Unset flags.
    let sa := upFor m.toNat 0 sa (fun i sa =>
      let j := sa i
      if n ≤ j then bset sa i (j - n) else sa)
    (sa, name)

/-- `induceSA` (sais.c:308-353): induce the full suffix array from the placed
LMS suffixes (L-pass then S-pass). -/
def induceSA (T : List Int) (C B : Loc) (n k : Int) (mem0 : Mem) : Mem :=
  -- Compute SAl.
  let mem := if C = B then getCounts T C n k mem0 else mem0
  let mem := getBuckets C B k false mem
  let j0 := n - 1
  let c1 := getI T j0
  let b := mem.rd B c1
  let mem := saW mem b (if 0 < j0 ∧ getI T (j0 - 1) < c1 then intNot j0 else j0)
  let b := b + 1
  let s1 := upFor n.toNat 0 (mem, b, c1) (fun i s =>
    let (mem, b, c1) := s
    let j := mem.sa i
    let mem := saW mem i (intNot j)
    if 0 < j then
      let j := j - 1
      let c0 := getI T j
      let (mem, b, c1) :=
        if c0 ≠ c1 then
          let mem := mem.wr B c1 b
          (mem, mem.rd B c0, c0)
        else (mem, b, c1)
      let mem := saW mem b (if 0 < j ∧ getI T (j - 1) < c1 then intNot j else j)
      (mem, b + 1, c1)
    else (mem, b, c1))
  -- Compute SAs.
  let mem := s1.1
  let mem := if C = B then getCounts T C n k mem else mem
  let mem := getBuckets C B k true mem
  let s2 := downFor n.toNat (n - 1) (mem, mem.rd B 0, (0 : Int)) (fun i s =>
    let (mem, b, c1) := s
    let j := mem.sa i
    if 0 < j then
      let j := j - 1
      let c0 := getI T j
      let (mem, b, c1) :=
        if c0 ≠ c1 then
          let mem := mem.wr B c1 b
          (mem, mem.rd B c0, c0)
        else (mem, b, c1)
      let b := b - 1
      let mem := saW mem b (if j = 0 ∨ c1 < getI T (j - 1) then intNot j else j)
      (mem, b, c1)
    else (saW mem i (intNot j), b, c1))
  s2.1

/-- `while (q < j) { SA[--j] = 0; }` (sais.c:559-561 and 570-572), running for
exactly `cnt = max (j - q) 0` iterations fixed by the caller. -/
def zeroDown : Nat → Buf → Int → Buf × Int
  | 0, sa, j => (sa, j)
  | c + 1, sa, j => zeroDown c (bset sa (j - 1) 0) (j - 1)

/-- Result of one placement run of Stage 3 (sais.c:562-568). -/
structure PRun where
  sa : Buf
  j : Int
  i : Int
  p : Int
  c1 : Int

/-- `do { SA[--j] = p; if (--i < 0) break; p = SA[i]; } while (chr(p) == c0);`
(sais.c:562-568), recursing on the index `i` as a `Nat`. -/
def placeRun (T : List Int) : Buf → Int → Nat → Int → Int → PRun
  | sa, j, 0, p, c0 => ⟨bset sa (j - 1) p, j - 1, -1, p, c0⟩
  | sa, j, i + 1, p, c0 =>
    let sa1 := bset sa (j - 1) p
    let p1 := sa1 (i : Int)
    let c1 := getI T p1
    if c1 = c0 then placeRun T sa1 (j - 1) i p1 c0 else ⟨sa1, j - 1, (i : Int), p1, c1⟩

theorem placeRun_i_le (T : List Int) (sa : Buf) (j : Int) (i : Nat) (p c0 : Int) :
    (placeRun T sa j i p c0).i ≤ (i : Int) - 1 := by
  induction i generalizing sa j p c0 with
  | zero => simp [placeRun]
  | succ i ih =>
    unfold placeRun
    dsimp only
    split
    · exact le_trans (ih _ _ _ _) (by push_cast; omega)
    · push_cast; omega

/-- The outer `do { ... } while (0 <= i);` loop of Stage 3 (sais.c:557-569). -/
def placeOuter (T : List Int) (B : Loc) : Nat → Mem → Int → Int → Int → Int → Mem × Int
  | 0, mem, _, j, _, _ => (mem, j)
  | fuel + 1, mem, i, j, p, c1 =>
    let q := mem.rd B c1
    let z := zeroDown (j - q).toNat mem.sa j
    let r := placeRun T z.1 z.2 i.toNat p c1
    if 0 ≤ r.i then placeOuter T B fuel { mem with sa := r.sa } r.i r.j r.p r.c1
    else ({ mem with sa := r.sa }, r.j)

/-- Stage 3 provisional placement of the sorted LMS suffixes at their bucket
ends (sais.c:554-573), including the trailing `while (0 < j) SA[--j] = 0;`. -/
def stage3Place (T : List Int) (C B : Loc) (n k m : Int) (mem0 : Mem) : Mem :=
  let mem := getBuckets C B k true mem0
  let p := mem.sa (m - 1)
  let c1 := getI T p
  let r := placeOuter T B (m + 1).toNat mem (m - 1) n p c1
  { r.1 with sa := (zeroDown r.2.toNat r.1.sa r.2).1 }

/-- Materialize the reduced string: `for (i = m + (n>>1) - 1, j = m - 1; m <= i; --i)
if (SA[i] != 0) RA[j--] = SA[i] - 1;` (sais.c:499-503). -/
def raBuild (raOff n m : Int) (sa : Buf) : Buf :=
  (downFor (n / 2).toNat (m + n / 2 - 1) (sa, m - 1) (fun i s =>
    if s.1 i ≠ 0 then (bset s.1 (raOff + s.2) (s.1 i - 1), s.2 - 1) else s)).1

/-- Second LMS-discovery sweep after the recursion, writing the LMS positions
into `RA` in text order (sais.c:518-530). -/
def lmsRebuildOuter (T : List Int) (raOff : Int) : Nat → Buf → Int → Int → Int → Buf
  | 0, sa, _, _, _ => sa
  | fuel + 1, sa, i, j, c0 =>
    if 0 ≤ i then
      let p := skipUp T i.toNat c0
      if 0 ≤ p.1 then
        let sa1 := bset sa (raOff + j) (p.1 + 1)
        let q := skipDown T p.1.toNat p.2
        lmsRebuildOuter T raOff fuel sa1 q.1 (j - 1) q.2
      else sa
    else sa

/-- sais.c:511-530. -/
def lmsRebuild (T : List Int) (raOff n m : Int) (sa : Buf) : Buf :=
  let q := skipDown T (n - 1).toNat (getI T (n - 1))
  lmsRebuildOuter T raOff (n + 1).toNat sa q.1 (m - 1) q.2

/-- `for (i = 0; i < m; ++i) SA[i] = RA[SA[i]];` (sais.c:531-533). -/
def remapRA (raOff m : Int) (sa : Buf) : Buf :=
  upFor m.toNat 0 sa (fun i sa => bset sa i (sa (raOff + sa i)))

/-- Preparation for the two-pass LMS sort (sais.c:454-463): un-reserve the
slot of the left-most LMS, flag the right-most member of every non-empty
bucket with `+n`, and zero `D[0..2k)`. -/
def twoPassPrep (T : List Int) (C B D : Loc) (n k j : Int) (mem0 : Mem) : Mem :=
  let mem := mem0.wr B (getI T (j + 1)) (mem0.rd B (getI T (j + 1)) + 1)
  (upFor k.toNat 0 (mem, (0 : Int)) (fun i s =>
    let jacc := s.2 + s.1.rd C i
    let mem := s.1
    let mem :=
      if mem.rd B i ≠ jacc then saW mem (mem.rd B i) (mem.sa (mem.rd B i) + n)
      else mem
    let mem := mem.wr D i 0
    let mem := mem.wr D (i + k) 0
    (mem, jacc))).1
/-- Allocator bookkeeping: failure oracle (exhausted = all further allocations
succeed), next fresh block id, and the multiset of live block ids. -/
structure AllocSt where
  oracle : List Bool
  nextId : Nat
  live : List Nat
deriving DecidableEq, Repr

/-- Which scratch buffer an allocation event concerns. -/
inductive BufTag where
  | bufC
  | bufB
  | bufD
deriving DecidableEq, Repr

/-- Ghost events recorded by `computeSA`: allocations (`SAIS_MYMALLOC`),
failures, frees (`SAIS_MYFREE`) and recursive calls. -/
inductive Ev where
  | alloc (tag : BufTag) (size : Int) (depth : Nat) (id : Nat)
  | allocFail (tag : BufTag) (size : Int) (depth : Nat)
  | freeE (id : Nat) (depth : Nat)
  | recCall (depth : Nat) (n fs k m name newfs : Int) (flags : Nat) (raLen : Nat)
deriving DecidableEq, Repr

/-- `SAIS_MYMALLOC(size, int)`: draw the oracle; on success create a fresh
zero block (the C block is uninitialized, but every cell is written before it
is read). -/
def allocBuf (mem : Mem) (al : AllocSt) (size : Int) : Option Nat × Mem × AllocSt :=
  let ok := al.oracle.headD true
  let rest := al.oracle.tail
  if ok then
    let id := al.nextId
    (some id,
     { mem with heap := fun x => if x = id then (fun _ => 0) else mem.heap x },
     { oracle := rest, nextId := id + 1, live := al.live ++ [id] })
  else (none, mem, { al with oracle := rest })

/-- `SAIS_MYFREE` of a buffer location (only heap blocks are ever freed). -/
def freeLoc (al : AllocSt) (l : Loc) (depth : Nat) : AllocSt × List Ev :=
  match l with
  | .heap id => ({ al with live := al.live.erase id }, [Ev.freeE id depth])
  | .sa _ => (al, [])

/-- Placement of a scratch buffer decided at entry. -/
inductive BufSpec where
  | tail (off : Int)
  | heapNew
  | sameAsC
deriving DecidableEq, Repr

/-- The workspace plan: where `C` and `B` live, plus the `flags` bitmask. -/
structure Plan where
  cSpec : BufSpec
  bSpec : BufSpec
  flags : Nat
deriving DecidableEq, Repr

/-- The workspace policy of `computeSA` (sais.c:364-404): locations of `C`
and `B` and the `flags` bits, including the two-pass selection bits 16/32. -/
def wsPlan (n fs k : Int) : Plan :=
  let base : Plan :=
    if k ≤ 256 then
      if k ≤ fs then ⟨.heapNew, .tail (n + fs - k), 1⟩
      else ⟨.heapNew, .heapNew, 3⟩
    else if k ≤ fs then
      if k ≤ fs - k then ⟨.tail (n + fs - k), .tail (n + fs - 2 * k), 0⟩
      else if k ≤ 1024 then ⟨.tail (n + fs - k), .heapNew, 2⟩
      else ⟨.tail (n + fs - k), .sameAsC, 8⟩
    else ⟨.heapNew, .sameAsC, 12⟩
  if n ≤ 1073741823 ∧ 2 ≤ n / k then
    if base.flags &&& 1 ≠ 0 then
      if 2 * k ≤ fs - k then { base with flags := base.flags ||| 32 }
      else { base with flags := base.flags ||| 16 }
    else if base.flags = 0 ∧ 2 * k ≤ fs - 2 * k then { base with flags := base.flags ||| 32 }
    else base
  else base

/-- Perform the entry allocations of `computeSA` per the workspace plan, with
the exact cleanup of the C code on failure (sais.c:364-397). -/
def allocCB (plan : Plan) (mem : Mem) (al : AllocSt) (k : Int) (depth : Nat) :
    Option (Loc × Loc) × Mem × AllocSt × List Ev :=
  match plan.cSpec, plan.bSpec with
  | .tail co, .tail bo => (some (.sa co, .sa bo), mem, al, [])
  | .tail co, .sameAsC => (some (.sa co, .sa co), mem, al, [])
  | .tail co, .heapNew =>
    match allocBuf mem al k with
    | (some id, mem1, al1) => (some (.sa co, .heap id), mem1, al1, [.alloc .bufB k depth id])
    | (none, mem1, al1) => (none, mem1, al1, [.allocFail .bufB k depth])
  | .heapNew, bs =>
    match allocBuf mem al k with
    | (none, mem1, al1) => (none, mem1, al1, [.allocFail .bufC k depth])
    | (some cid, mem1, al1) =>
      match bs with
      | .tail bo => (some (.heap cid, .sa bo), mem1, al1, [.alloc .bufC k depth cid])
      | .sameAsC => (some (.heap cid, .heap cid), mem1, al1, [.alloc .bufC k depth cid])
      | .heapNew =>
        match allocBuf mem1 al1 k with
        | (some bid, mem2, al2) =>
          (some (.heap cid, .heap bid), mem2, al2,
           [.alloc .bufC k depth cid, .alloc .bufB k depth bid])
        | (none, mem2, al2) =>
          (none, mem2, { al2 with live := al2.live.erase cid },
           [.alloc .bufC k depth cid, .allocFail .bufB k depth, .freeE cid depth])
  | .sameAsC, _ => (none, mem, al, [])

/-- The LMS-substring sorting step of Stage 1 (sais.c:439-478): either the
two-pass sort (allocating `D` when `flags & 16`), the single-pass sort, or
the degenerate `m ≤ 1` cases.  `inl` carries `(mem, al, evs, name)`; `inr`
is an allocation failure with cleanup already performed. -/
def sortStep (T : List Int) (C B : Loc) (flags : Nat) (n k m j : Int)
    (b : Option Int) (depth : Nat) (mem : Mem) (al : AllocSt) :
    (Mem × AllocSt × List Ev × Int) ⊕ (Mem × AllocSt × List Ev) :=
  if 1 < m then
    if flags &&& 48 ≠ 0 then
      match (if flags &&& 16 ≠ 0 then
          match allocBuf mem al (2 * k) with
          | (some id, mem1, al1) =>
            Sum.inl ((Loc.heap id, mem1, al1, ([Ev.alloc .bufD (2 * k) depth id] : List Ev)))
          | (none, mem1, al1) =>
            let f1 := if flags &&& 5 ≠ 0 then freeLoc al1 C depth else (al1, [])
            let f2 := if flags &&& 2 ≠ 0 then freeLoc f1.1 B depth else (f1.1, [])
            Sum.inr (mem1, f2.1, [Ev.allocFail .bufD (2 * k) depth] ++ f1.2 ++ f2.2)
        else
          Sum.inl ((match B with
            | .sa bo => Loc.sa (bo - 2 * k)
            | .heap id => Loc.heap id), mem, al, ([] : List Ev))) with
      | Sum.inr fail => Sum.inr fail
      | Sum.inl (D, mem1, al1, evD) =>
        let mem2 := twoPassPrep T C B D n k j mem1
        let mem3 := LMSsort2 T C B D n k mem2
        let pp := postProcLMS2 n m mem3.sa
        let mem4 := { mem3 with sa := pp.1 }
        let fD := if flags &&& 16 ≠ 0 then freeLoc al1 D depth else (al1, [])
        Sum.inl (mem4, fD.1, evD ++ fD.2, pp.2)
    else
      let mem1 := sortLMS1 T C B n k mem
      let pp := postProcLMS1 T n m mem1.sa
      Sum.inl ({ mem1 with sa := pp.1 }, al, [], pp.2)
  else if m = 1 then
    let mem1 := match b with
      | some off => saW mem off (j + 1)
      | none => mem
    Sum.inl (mem1, al, [], 1)
  else
    Sum.inl (mem, al, [], 0)

/-- Stage 3 and the final frees (sais.c:549-581). -/
def finishSA (T : List Int) (C B : Loc) (flags : Nat) (n k m : Int) (depth : Nat)
    (mem : Mem) (al : AllocSt) : Mem × AllocSt × List Ev :=
  let mem := if flags &&& 8 ≠ 0 then getCounts T C n k mem else mem
  let mem := if 1 < m then stage3Place T C B n k m mem else mem
  let mem := induceSA T C B n k mem
  let f1 := if flags &&& 5 ≠ 0 then freeLoc al C depth else (al, [])
  let f2 := if flags &&& 2 ≠ 0 then freeLoc f1.1 B depth else (f1.1, [])
  (mem, f2.1, f1.2 ++ f2.2)

/-- Result of `computeSA`: status (`0` or `-2`), final memory, allocator
state, and the ghost event list. -/
structure SAResult where
  status : Int
  mem : Mem
  al : AllocSt
  evs : List Ev

/-- Stage 2 continuation of `computeSA` after the recursive call
(sais.c:510-547): propagate `-2` (freeing `C` when `flags & 1`), otherwise
rebuild the LMS order from the recursive suffix array, remap `SA[0..m)`,
re-establish `C` (when `flags & 4`) and `B` (when `flags & 2`), and run
Stage 3.  `res` is the recursive call's result; `evsPre` the ghost events
recorded before it. -/
def stage2Glue (T : List Int) (C B : Loc) (depth : Nat) (n k m : Int)
    (flags2 : Nat) (newfs : Int) (evsPre : List Ev) (res : Option SAResult) :
    Option SAResult :=
  match res with
  | none => none
  | some r =>
    let evsAll := evsPre ++ r.evs
    if r.status ≠ 0 then
      let f1 := if flags2 &&& 1 ≠ 0 then freeLoc r.al C depth else (r.al, [])
      some ⟨-2, r.mem, f1.1, evsAll ++ f1.2⟩
    else
      let raOff := m + newfs
      let mem7 := { r.mem with sa := lmsRebuild T raOff n m r.mem.sa }
      let mem8 := { mem7 with sa := remapRA raOff m mem7.sa }
      -- re-establish C and B for Stage 3 (sais.c:534-546)
      match (if flags2 &&& 4 ≠ 0 then
          match allocBuf mem8 r.al k with
          | (some id, mem9, al4) =>
            Sum.inl ((Loc.heap id, Loc.heap id), mem9, al4,
              ([Ev.alloc .bufC k depth id] : List Ev))
          | (none, mem9, al4) => Sum.inr (mem9, al4, ([Ev.allocFail .bufC k depth] : List Ev))
        else Sum.inl ((C, B), mem8, r.al, ([] : List Ev))) with
      | Sum.inr (memF, alF, evsF) => some ⟨-2, memF, alF, evsAll ++ evsF⟩
      | Sum.inl ((C2, B2), mem9, al5, evs2) =>
        match (if flags2 &&& 2 ≠ 0 then
            match allocBuf mem9 al5 k with
            | (some id, mem10, al6) =>
              Sum.inl (Loc.heap id, mem10, al6, ([Ev.alloc .bufB k depth id] : List Ev))
            | (none, mem10, al6) =>
              let f1 := if flags2 &&& 1 ≠ 0 then freeLoc al6 C2 depth else (al6, [])
              Sum.inr (mem10, f1.1, [Ev.allocFail .bufB k depth] ++ f1.2)
          else Sum.inl (B2, mem9, al5, ([] : List Ev))) with
        | Sum.inr (memF, alF, evsF) => some ⟨-2, memF, alF, evsAll ++ evs2 ++ evsF⟩
        | Sum.inl (B3, mem10, al6, evs3) =>
          let fin := finishSA T C2 B3 flags2 n k m depth mem10 al6
          some ⟨0, fin.1, fin.2.1, evsAll ++ evs2 ++ evs3 ++ fin.2.2⟩

/-- The conditional frees of `C` (under `flags & 4`) and `B` (under
`flags & 2`) performed before the recursion (sais.c:483-488); returns the
resulting allocator state and the two event lists. -/
def preRecFrees (C B : Loc) (flags : Nat) (al : AllocSt) (d : Nat) :
    AllocSt × List Ev × List Ev :=
  let f4 := if flags &&& 4 ≠ 0 then freeLoc al C d else (al, [])
  let f2 := if flags &&& 2 ≠ 0 then freeLoc f4.1 B d else (f4.1, [])
  (f2.1, f4.2, f2.2)

/-- The embedding of `computeSA(T, SA, fs, n, k, cs)` (sais.c:355-582).
`fuel` bounds the recursion depth (the C recursion is on a strictly smaller
problem, so any `fuel > n` suffices); `none` means fuel ran out. -/
def computeSA (fuel : Nat) (depth : Nat) (T : List Int) (mem : Mem) (al : AllocSt)
    (fs n k cs : Int) : Option SAResult :=
  match fuel with
  | 0 => none
  | fuel + 1 =>
    let plan := wsPlan n fs k
    let flags := plan.flags
    match allocCB plan mem al k depth with
    | (none, memF, alF, evsF) => some ⟨-2, memF, alF, evsF⟩
    | (some (C, B), mem1, al1, evs0) =>
      -- Stage 1: reduce the problem by at least 1/2.
      let mem2 := getCounts T C n k mem1
      let mem3 := getBuckets C B k true mem2
      let sc := stage1Scan T B n mem3
      let m := sc.m
      match sortStep T C B flags n k m sc.j sc.b depth sc.mem al1 with
      | Sum.inr (memF, alF, evsF) => some ⟨-2, memF, alF, evs0 ++ evsF⟩
      | Sum.inl (mem4, al2, evs1, name) =>
        -- Stage 2: solve the reduced problem.
        if name < m then
          let pr := preRecFrees C B flags al2 depth
          let al3 := pr.1
          let newfs0 := n + fs - 2 * m
          let nf : Int × Nat :=
            if flags &&& 13 = 0 then
              if k + name ≤ newfs0 then (newfs0 - k, flags) else (newfs0, flags ||| 8)
            else (newfs0, flags)
          let newfs := nf.1
          let flags2 := nf.2
          let raOff := m + newfs
          let mem5 := { mem4 with sa := raBuild raOff n m mem4.sa }
          let TR := (List.range m.toNat).map (fun t => mem5.sa (raOff + (t : Int)))
          let evRec := Ev.recCall depth n fs k m name newfs flags2 TR.length
          stage2Glue T C B depth n k m flags2 newfs
            (evs0 ++ evs1 ++ pr.2.1 ++ pr.2.2 ++ [evRec])
            (computeSA fuel (depth + 1) TR mem5 al3 newfs m name 4)
        else
          let fin := finishSA T C B flags n k m depth mem4 al2
          some ⟨0, fin.1, fin.2.1, evs0 ++ evs1 ++ fin.2.2⟩

/-- The all-zero initial memory handed to a fresh run: the caller's `SA`
buffer (contents unspecified in C; zero here) and an empty heap. -/
def mem0 : Mem := ⟨fun _ => 0, fun _ _ => 0⟩

/-- Allocator start state: the empty oracle (every allocation succeeds). -/
def al0 : AllocSt := ⟨[], 0, []⟩

/-- Run `computeSA(T, SA, fs, n, k, cs)` on a fresh buffer with `n = |T|`
and enough fuel, returning the status and `SA[0..n)`. -/
def saRun (T : List Int) (k fs : Int) : Option (Int × List Int) :=
  let n : Int := T.length
  (computeSA (n.toNat + 1) 0 T mem0 al0 fs n k 1).map
    (fun r => (r.status, (List.range n.toNat).map (fun i => r.mem.sa (i : Int))))

/-- Claim C3: on the spec's concrete scenarios, `computeSA` returns 0 and
produces exactly the listed suffix arrays: `"banana" = [1,0,2,0,2,0]`
(n = 6, k = 3) yields `[5,3,1,0,4,2]`; `[0,0,0,0,0]` (n = 5, k = 1) yields
`[4,3,2,1,0]`; `[0,1,2,3,4,5,6,7]` (n = 8, k = 8) yields `[0,1,2,3,4,5,6,7]`.
Each scenario is checked both with no slack (`fs = 0`) and with `fs = 2n`,
which exercise different workspace regimes. -/
theorem computeSA_concrete_scenarios :
    saRun [1,0,2,0,2,0] 3 0 = some (0, [5,3,1,0,4,2]) ∧
    saRun [1,0,2,0,2,0] 3 12 = some (0, [5,3,1,0,4,2]) ∧
    saRun [0,0,0,0,0] 1 0 = some (0, [4,3,2,1,0]) ∧
    saRun [0,0,0,0,0] 1 10 = some (0, [4,3,2,1,0]) ∧
    saRun [0,1,2,3,4,5,6,7] 8 0 = some (0, [0,1,2,3,4,5,6,7]) ∧
    saRun [0,1,2,3,4,5,6,7] 8 16 = some (0, [0,1,2,3,4,5,6,7]) := by
  decide

/-- Right-to-left S/L classification: `sTypeAux T n base d` is the type of
position `n - 1 - d`, with `base` the type assigned to the last position
(`true` = S-type).  Position `i` is S-type if `T[i] < T[i+1]`, or
`T[i] = T[i+1]` and `i+1` is S-type. -/
def sTypeAux (T : List Int) (n : Int) (base : Bool) : Nat → Bool
  | 0 => base
  | d + 1 =>
    let i := n - 2 - (d : Int)
    if getI T i < getI T (i + 1) then true
    else if getI T i = getI T (i + 1) then sTypeAux T n base d
    else false

/-- The spec's classification: position `n-1` is defined S-type. -/
def sSpec (T : List Int) (n i : Int) : Bool := sTypeAux T n true (n - 1 - i).toNat

/-- The classification realized by the discovery scan of the code: the last
position never starts an LMS (it behaves as L-type). -/
def sCode (T : List Int) (n i : Int) : Bool := sTypeAux T n false (n - 1 - i).toNat

/-- LMS predicate under the spec's classification. -/
def lmsSpecB (T : List Int) (n i : Int) : Bool :=
  decide (0 < i) && decide (i < n) && sSpec T n i && !sSpec T n (i - 1)

/-- LMS predicate as realized by the code's discovery scan. -/
def lmsB (T : List Int) (n i : Int) : Bool :=
  decide (0 < i) && decide (i < n) && sCode T n i && !sCode T n (i - 1)

/-- Number of LMS positions under the spec's classification. -/
def lmsCountSpec (T : List Int) (n : Int) : Nat :=
  (List.range n.toNat).countP (fun p : Nat => lmsSpecB T n (p : Int))

/-- Number of LMS positions under the code's classification. -/
def lmsCount (T : List Int) (n : Int) : Nat :=
  (List.range n.toNat).countP (fun p : Nat => lmsB T n (p : Int))

/-- Number of code-LMS positions `p ≤ hi`. -/
def lmsCountLE (T : List Int) (n hi : Int) : Nat :=
  (List.range (hi + 1).toNat).countP (fun p : Nat => lmsB T n (p : Int))

theorem sCode_last (T : List Int) (n i : Int) (h : n - 1 ≤ i) : sCode T n i = false := by
  unfold sCode
  have h0 : (n - 1 - i).toNat = 0 := by omega
  rw [h0]
  rfl

theorem sTypeAux_step (T : List Int) (n : Int) (base : Bool) (d : Nat) (i : Int)
    (hi : i = n - 2 - (d : Int)) :
    sTypeAux T n base (d + 1) =
      (if getI T i < getI T (i + 1) then true
       else if getI T i = getI T (i + 1) then sTypeAux T n base d else false) := by
  subst hi; rfl

theorem sCode_rec (T : List Int) (n i : Int) (h0 : 0 ≤ i) (h1 : i < n - 1) :
    sCode T n i =
      (if getI T i < getI T (i + 1) then true
       else if getI T i = getI T (i + 1) then sCode T n (i + 1) else false) := by
  unfold sCode
  have hd : (n - 1 - i).toNat = (n - 1 - (i + 1)).toNat + 1 := by omega
  rw [hd, sTypeAux_step T n false ((n - 1 - (i + 1)).toNat) i (by omega)]

theorem sCode_true_le (T : List Int) (n i : Int) (h : sCode T n i = true) : i ≤ n - 2 := by
  by_contra hc
  rw [sCode_last T n i (by omega)] at h
  exact Bool.false_ne_true h

/-- A code-LMS position has a strict descent to its left. -/
theorem lms_desc (T : List Int) (n i : Int) (h : lmsB T n i = true) :
    getI T i < getI T (i - 1) := by
  unfold lmsB at h
  simp only [Bool.and_eq_true, decide_eq_true_eq, Bool.not_eq_eq_eq_not, Bool.not_true] at h
  obtain ⟨⟨⟨h0, h1⟩, hS⟩, hL⟩ := h
  by_contra hc
  push_neg at hc
  have hrec := sCode_rec T n (i - 1) (by omega) (by omega)
  rw [sub_add_cancel] at hrec
  rcases lt_or_eq_of_le hc with hlt | heq
  · rw [if_pos hlt, hL] at hrec
    exact Bool.false_ne_true hrec
  · rw [if_neg (by omega), if_pos heq, hL, hS] at hrec
    exact Bool.false_ne_true hrec

/-- Conversely, a strict descent onto an S-type position marks an LMS. -/
theorem lms_of_desc (T : List Int) (n i : Int) (h0 : 0 < i) (h1 : i < n)
    (hS : sCode T n i = true) (hd : getI T i < getI T (i - 1)) : lmsB T n i = true := by
  unfold lmsB
  have hL : sCode T n (i - 1) = false := by
    have hrec := sCode_rec T n (i - 1) (by omega) (by omega)
    rw [sub_add_cancel, if_neg (by omega), if_neg (by omega)] at hrec
    exact hrec
  simp only [Bool.and_eq_true, decide_eq_true_eq, Bool.not_eq_eq_eq_not, Bool.not_true]
  exact ⟨⟨⟨h0, h1⟩, hS⟩, hL⟩

/-- Descending-run chain: positions covered by a `≥` run ending at an L-type
position are all L-type. -/
theorem sCode_false_chain (T : List Int) (n u v : Int) (hu : -1 ≤ u)
    (hreg : ∀ t : Int, u < t → t < v → getI T (t + 1) ≤ getI T t)
    (hv : sCode T n v = false) (hvn : v ≤ n - 1) :
    ∀ p : Int, u < p → p ≤ v → sCode T n p = false := by
  intro p hup hpv
  obtain ⟨d, hd⟩ : ∃ d : Nat, v - p = d := ⟨(v - p).toNat, by omega⟩
  induction d generalizing p with
  | zero =>
    have h : p = v := by omega
    rw [h]; exact hv
  | succ d ih =>
    have hnext := ih (p + 1) (by omega) (by omega) (by omega)
    have hdesc := hreg p hup (by omega)
    have hrec := sCode_rec T n p (by omega) (by omega)
    rcases lt_trichotomy (getI T p) (getI T (p + 1)) with hlt | heq | hgt
    · omega
    · rw [if_neg (by omega), if_pos heq, hnext] at hrec
      exact hrec
    · rw [if_neg (by omega), if_neg (by omega)] at hrec
      exact hrec

/-- Ascending-run chain: positions covered by a `≤` run ending at an S-type
position are all S-type. -/
theorem sCode_true_chain (T : List Int) (n u v : Int) (hu : -1 ≤ u)
    (hreg : ∀ t : Int, u < t → t < v → getI T t ≤ getI T (t + 1))
    (hv : sCode T n v = true) :
    ∀ p : Int, u < p → p ≤ v → sCode T n p = true := by
  intro p hup hpv
  have hvn : v ≤ n - 2 := sCode_true_le T n v hv
  obtain ⟨d, hd⟩ : ∃ d : Nat, v - p = d := ⟨(v - p).toNat, by omega⟩
  induction d generalizing p with
  | zero =>
    have h : p = v := by omega
    rw [h]; exact hv
  | succ d ih =>
    have hnext := ih (p + 1) (by omega) (by omega) (by omega)
    have hasc := hreg p hup (by omega)
    have hrec := sCode_rec T n p (by omega) (by omega)
    rcases lt_or_eq_of_le hasc with hlt | heq
    · rw [if_pos hlt] at hrec
      exact hrec
    · rw [if_neg (by omega), if_pos heq, hnext] at hrec
      exact hrec

/-- Specification of the descending skip: starting from index `i` holding
`c0 = T[i]`, it exits either below 0, or at the first `i' < i` with
`T[i'] < T[i'+1]`; every position passed satisfies `T[t+1] ≤ T[t]`. -/
theorem skipDown_spec (T : List Int) (i : Nat) (c0 : Int) (hc0 : c0 = getI T (i : Int)) :
    (-1 ≤ (skipDown T i c0).1) ∧ ((skipDown T i c0).1 ≤ (i : Int) - 1) ∧
    (0 ≤ (skipDown T i c0).1 →
      (skipDown T i c0).2 = getI T (skipDown T i c0).1 ∧
      getI T (skipDown T i c0).1 < getI T ((skipDown T i c0).1 + 1)) ∧
    (∀ t : Int, (skipDown T i c0).1 < t → t < (i : Int) → getI T (t + 1) ≤ getI T t) := by
  induction i generalizing c0 with
  | zero =>
    refine ⟨by simp [skipDown], by simp [skipDown], ?_, ?_⟩
    · intro h; simp [skipDown] at h
    · intro t h1 h2; simp [skipDown] at h1; omega
  | succ i ih =>
    unfold skipDown
    dsimp only
    split
    · rename_i hcond
      have hih := ih (getI T (i : Int)) rfl
      refine ⟨hih.1, le_trans hih.2.1 (by push_cast; omega), hih.2.2.1, ?_⟩
      intro t h1 h2
      by_cases ht : t < (i : Int)
      · exact hih.2.2.2 t h1 ht
      · have : t = (i : Int) := by push_cast at h2 ⊢; omega
        subst this
        rw [hc0] at hcond
        push_cast
        exact hcond
    · rename_i hcond
      push_neg at hcond
      refine ⟨by push_cast; omega, by push_cast; omega, ?_, ?_⟩
      · intro _
        refine ⟨rfl, ?_⟩
        rw [hc0] at hcond
        push_cast
        exact hcond
      · intro t h1 h2
        push_cast at h1 h2
        omega

/-- Specification of the ascending skip: starting from index `i` holding
`c0 = T[i]`, it exits either below 0, or at the first `i' < i` with
`T[i'] > T[i'+1]`; every position passed satisfies `T[t] ≤ T[t+1]`. -/
theorem skipUp_spec (T : List Int) (i : Nat) (c0 : Int) (hc0 : c0 = getI T (i : Int)) :
    (-1 ≤ (skipUp T i c0).1) ∧ ((skipUp T i c0).1 ≤ (i : Int) - 1) ∧
    (0 ≤ (skipUp T i c0).1 →
      (skipUp T i c0).2 = getI T (skipUp T i c0).1 ∧
      getI T ((skipUp T i c0).1 + 1) < getI T (skipUp T i c0).1) ∧
    (∀ t : Int, (skipUp T i c0).1 < t → t < (i : Int) → getI T t ≤ getI T (t + 1)) := by
  induction i generalizing c0 with
  | zero =>
    refine ⟨by simp [skipUp], by simp [skipUp], ?_, ?_⟩
    · intro h; simp [skipUp] at h
    · intro t h1 h2; simp [skipUp] at h1; omega
  | succ i ih =>
    unfold skipUp
    dsimp only
    split
    · rename_i hcond
      have hih := ih (getI T (i : Int)) rfl
      refine ⟨hih.1, le_trans hih.2.1 (by push_cast; omega), hih.2.2.1, ?_⟩
      intro t h1 h2
      by_cases ht : t < (i : Int)
      · exact hih.2.2.2 t h1 ht
      · have : t = (i : Int) := by push_cast at h2 ⊢; omega
        subst this
        rw [hc0] at hcond
        push_cast
        exact hcond
    · rename_i hcond
      push_neg at hcond
      refine ⟨by push_cast; omega, by push_cast; omega, ?_, ?_⟩
      · intro _
        refine ⟨rfl, ?_⟩
        rw [hc0] at hcond
        push_cast
        exact hcond
      · intro t h1 h2
        push_cast at h1 h2
        omega

theorem lms_not_of_asc (T : List Int) (n p : Int) (h : getI T (p - 1) ≤ getI T p) :
    lmsB T n p = false := by
  cases hb : lmsB T n p with
  | false => rfl
  | true => exact absurd (lms_desc T n p hb) (by omega)

theorem lms_not_of_L (T : List Int) (n p : Int) (h : sCode T n p = false) :
    lmsB T n p = false := by
  unfold lmsB
  rw [h]
  simp

theorem lms_not_nonpos (T : List Int) (n p : Int) (h : p ≤ 0) : lmsB T n p = false := by
  unfold lmsB
  simp only [Bool.and_eq_false_iff]
  left; left; left
  simp only [decide_eq_false_iff_not]
  omega

theorem lmsCountLE_neg (T : List Int) (n hi : Int) (h : hi < 0) : lmsCountLE T n hi = 0 := by
  unfold lmsCountLE
  have h0 : (hi + 1).toNat = 0 := by omega
  rw [h0]
  rfl

theorem lmsCountLE_succ (T : List Int) (n hi : Int) (h : 0 ≤ hi) :
    lmsCountLE T n hi = lmsCountLE T n (hi - 1) + (if lmsB T n hi = true then 1 else 0) := by
  unfold lmsCountLE
  have h1 : (hi + 1).toNat = (hi - 1 + 1).toNat + 1 := by omega
  rw [h1, List.range_succ, List.countP_append]
  congr 1
  have h2 : ((hi - 1 + 1).toNat : Int) = hi := by omega
  simp only [List.countP_cons, List.countP_nil, h2]
  omega

theorem lmsCountLE_zero_seg (T : List Int) (n lo hi : Int) (hlo : -1 ≤ lo) (hle : lo ≤ hi)
    (hz : ∀ p : Int, lo < p → p ≤ hi → lmsB T n p = false) :
    lmsCountLE T n hi = lmsCountLE T n lo := by
  obtain ⟨d, hd⟩ : ∃ d : Nat, hi - lo = d := ⟨(hi - lo).toNat, by omega⟩
  induction d generalizing hi with
  | zero =>
    have h : hi = lo := by omega
    rw [h]
  | succ d ih =>
    have hrec := lmsCountLE_succ T n hi (by omega)
    rw [hz hi (by omega) le_rfl] at hrec
    simp only [if_neg (Bool.false_ne_true)] at hrec
    rw [hrec, ih (hi - 1) (by omega) (fun p h1 h2 => hz p h1 (by omega)) (by omega)]
    omega

theorem lmsCountLE_one_seg (T : List Int) (n lo hi x : Int) (hlo : -1 ≤ lo) (hx1 : lo < x)
    (hx2 : x ≤ hi) (hlms : lmsB T n x = true)
    (hz : ∀ p : Int, lo < p → p ≤ hi → p ≠ x → lmsB T n p = false) :
    lmsCountLE T n hi = lmsCountLE T n lo + 1 := by
  have step1 : lmsCountLE T n hi = lmsCountLE T n x := by
    rcases eq_or_lt_of_le hx2 with he | hlt
    · rw [he]
    · exact lmsCountLE_zero_seg T n x hi (by omega) (by omega)
        (fun p h1 h2 => hz p (by omega) h2 (by omega))
  have step2 : lmsCountLE T n x = lmsCountLE T n (x - 1) + 1 := by
    rw [lmsCountLE_succ T n x (by omega), hlms]
    simp
  have step3 : lmsCountLE T n (x - 1) = lmsCountLE T n lo := by
    rcases eq_or_lt_of_le (show lo ≤ x - 1 by omega) with he | hlt
    · rw [← he]
    · exact lmsCountLE_zero_seg T n lo (x - 1) hlo (by omega)
        (fun p h1 h2 => hz p h1 (by omega) (by omega))
  rw [step1, step2, step3]

theorem scan1Outer_neg (T : List Int) (B : Loc) (fuel : Nat) (st : Scan1) (i c0 : Int)
    (h : i < 0) : scan1Outer T B fuel st i c0 = st := by
  cases fuel with
  | zero => rfl
  | succ f =>
    unfold scan1Outer
    dsimp only
    rw [if_neg (by omega)]

/-- Master lemma for the Stage 1 discovery loop: entered at position `i` that
was left by a descending skip (so `c0 = T[i]` and `T[i] < T[i+1]` when
`0 ≤ i`), with enough fuel, the loop adds exactly the number of code-LMS
positions `≤ i` to the running count `m`. -/
theorem scan1Outer_m (T : List Int) (B : Loc) (n : Int) (fuel : Nat) :
    ∀ (st : Scan1) (i c0 : Int),
      i ≤ n - 2 →
      (0 ≤ i → c0 = getI T i ∧ getI T i < getI T (i + 1)) →
      i + 2 ≤ (fuel : Int) →
      (scan1Outer T B fuel st i c0).m = st.m + (lmsCountLE T n i : Int) := by
  induction fuel with
  | zero =>
    intro st i c0 hn hentry hfuel
    rw [scan1Outer_neg T B 0 st i c0 (by push_cast at hfuel; omega),
      lmsCountLE_neg T n i (by push_cast at hfuel; omega)]
    omega
  | succ fuel ih =>
    intro st i c0 hn hentry hfuel
    by_cases hpos : 0 ≤ i
    · obtain ⟨hc, hasc_i⟩ := hentry hpos
      have hSi : sCode T n i = true := by
        have hrec := sCode_rec T n i hpos (by omega)
        rw [if_pos hasc_i] at hrec
        exact hrec
      have hcast : (i.toNat : Int) = i := Int.toNat_of_nonneg hpos
      have hsp := skipUp_spec T i.toNat c0 (by rw [hcast]; exact hc)
      rw [hcast] at hsp
      unfold scan1Outer
      dsimp only
      rw [if_pos hpos]
      by_cases htop : 0 ≤ (skipUp T i.toNat c0).1
      · rw [if_pos htop]
        obtain ⟨hi1lo, hi1hi, hexit0, hregU⟩ := hsp
        obtain ⟨hexv, hexd⟩ := hexit0 htop
        have hcast1 : (((skipUp T i.toNat c0).1).toNat : Int) = (skipUp T i.toNat c0).1 :=
          Int.toNat_of_nonneg htop
        have hsd := skipDown_spec T ((skipUp T i.toNat c0).1).toNat (skipUp T i.toNat c0).2
          (by rw [hcast1]; exact hexv)
        rw [hcast1] at hsd
        obtain ⟨hi2lo, hi2hi, hexit2, hregD⟩ := hsd
        rw [ih _ _ _ (by omega) hexit2 (by push_cast at hfuel ⊢; omega)]
        have hcnt : lmsCountLE T n i =
            lmsCountLE T n (skipDown T ((skipUp T i.toNat c0).1).toNat
              (skipUp T i.toNat c0).2).1 + 1 := by
          apply lmsCountLE_one_seg T n _ i ((skipUp T i.toNat c0).1 + 1) hi2lo (by omega)
            (by omega)
          · apply lms_of_desc T n _ (by omega) (by omega)
            · exact sCode_true_chain T n (skipUp T i.toNat c0).1 i (by omega) hregU hSi _
                (by omega) (by omega)
            · rw [add_sub_cancel_right]
              exact hexd
          · intro p hp1 hp2 hp3
            have hSL : sCode T n (skipUp T i.toNat c0).1 = false := by
              have hrec := sCode_rec T n (skipUp T i.toNat c0).1 htop (by omega)
              rw [if_neg (by omega), if_neg (by omega)] at hrec
              exact hrec
            by_cases hple : p ≤ (skipUp T i.toNat c0).1
            · exact lms_not_of_L T n p
                (sCode_false_chain T n _ _ hi2lo hregD hSL (by omega) p hp1 hple)
            · apply lms_not_of_asc T n p
              have := hregU (p - 1) (by omega) (by omega)
              rwa [sub_add_cancel] at this
        rw [hcnt]
        push_cast
        ring
      · rw [if_neg htop]
        have hi1 : (skipUp T i.toNat c0).1 = -1 := by omega
        have hz : ∀ p : Int, (-1 : Int) < p → p ≤ i → lmsB T n p = false := by
          intro p hp1 hp2
          by_cases hp0 : p ≤ 0
          · exact lms_not_nonpos T n p hp0
          · apply lms_not_of_asc T n p
            have := hsp.2.2.2 (p - 1) (by omega) (by omega)
            rwa [sub_add_cancel] at this
        rw [lmsCountLE_zero_seg T n (-1) i (by omega) (by omega) hz,
          lmsCountLE_neg T n (-1) (by omega)]
        omega
    · rw [scan1Outer_neg T B (fuel + 1) st i c0 (by omega),
        lmsCountLE_neg T n i (by omega)]
      omega

/-- The Stage 1 discovery scan computes `m` = the number of code-LMS
positions, i.e. the count under the classification that treats the last
position as L-type. -/
theorem stage1Scan_m (T : List Int) (B : Loc) (n : Int) (mem0 : Mem) :
    (stage1Scan T B n mem0).m = (lmsCount T n : Int) := by
  have hcnt : lmsCount T n = lmsCountLE T n (n - 1) := by
    unfold lmsCount lmsCountLE
    have h : n - 1 + 1 = n := by ring
    rw [h]
  unfold stage1Scan
  dsimp only
  by_cases hn : n ≤ 0
  · have h0 : (n - 1).toNat = 0 := by omega
    rw [h0]
    have hq : skipDown T 0 (getI T (n - 1)) = (-1, getI T (n - 1)) := rfl
    rw [hq, scan1Outer_neg T B _ _ _ _ (by omega)]
    have hc : lmsCount T n = 0 := by
      unfold lmsCount
      have h1 : n.toNat = 0 := by omega
      rw [h1]
      rfl
    rw [hc]
    rfl
  · push_neg at hn
    have hcast : (((n - 1).toNat : Nat) : Int) = n - 1 := by omega
    have hsd := skipDown_spec T (n - 1).toNat (getI T (n - 1)) (by rw [hcast])
    rw [hcast] at hsd
    obtain ⟨hlo, hhi, hexit, hreg⟩ := hsd
    rw [scan1Outer_m T B n (n + 1).toNat _ _ _ (by omega) hexit (by omega)]
    have hz : ∀ p : Int,
        (skipDown T (n - 1).toNat (getI T (n - 1))).1 < p → p ≤ n - 1 →
        lmsB T n p = false := by
      intro p hp1 hp2
      exact lms_not_of_L T n p
        (sCode_false_chain T n _ (n - 1) hlo hreg (sCode_last T n (n - 1) le_rfl)
          le_rfl p hp1 hp2)
    rw [hcnt, lmsCountLE_zero_seg T n _ (n - 1) hlo (by omega) hz]
    dsimp only
    omega

/-- C5: Refuted as stated, then corrected.  The spec claims the Stage 1 counter
`m` equals the number of LMS positions under the spec's classification, which
defines position `n-1` to be S-type.  The scan actually computes the number of
LMS positions under the classification that treats position `n-1` as L-type
(the descending skip that precedes the main loop runs over the final run
without reserving a slot).  This theorem is the corrected statement: for every
text `T`, bucket-end location `B`, length `n` and initial memory, the scan's
`m` equals `lmsCount T n`, the LMS count with the last position L-type. -/
theorem C5_stage1_m_corrected (T : List Int) (B : Loc) (n : Int) (mem0 : Mem) :
    (stage1Scan T B n mem0).m = (lmsCount T n : Int) :=
  stage1Scan_m T B n mem0

/-- Counterexample to C5 as written: for `T = [1,0]` (`n = 2`), position 1 is
LMS under the spec's classification (the last position is defined S-type and
`T[1] < T[0]`), so the spec predicts `m = 1`; the scan computes `m = 0`. -/
theorem C5_stage1_m_counterexample :
    lmsCountSpec [1, 0] 2 = 1 ∧
    (stage1Scan [1, 0] (Loc.heap 1) 2 mem0).m = 0 := by
  constructor
  · decide
  · decide

/-- The code-LMS positions `≤ hi`, in decreasing order (the order in which the
discovery scan meets them). -/
def lmsListDec (T : List Int) (n hi : Int) : List Int :=
  (((List.range (hi + 1).toNat).filter (fun p : Nat => lmsB T n (p : Int))).reverse).map
    (fun p : Nat => (p : Int))

/-- The placement process the discovery scan realizes: for each LMS position
`x` (met in decreasing order), flush the pending mark `j` to the pending slot
`b` (the first flush goes to the dummy), reserve the new slot `--B[T[x]]`, and
set the new mark to `x - 1`. -/
def placeList (T : List Int) (B : Loc) : List Int → Scan1 → Scan1
  | [], st => st
  | x :: xs, st =>
    let c1 := getI T x
    let mem := match st.b with
      | none => st.mem
      | some off => saW st.mem off st.j
    let mem := mem.wr B c1 (mem.rd B c1 - 1)
    let b := some (mem.rd B c1)
    placeList T B xs ⟨mem, b, x - 1, st.m + 1⟩

theorem lmsListDec_neg (T : List Int) (n hi : Int) (h : hi < 0) : lmsListDec T n hi = [] := by
  unfold lmsListDec
  have h0 : (hi + 1).toNat = 0 := by omega
  rw [h0]
  rfl

theorem lmsListDec_succ (T : List Int) (n hi : Int) (h : 0 ≤ hi) :
    lmsListDec T n hi =
      (if lmsB T n hi = true then [hi] else []) ++ lmsListDec T n (hi - 1) := by
  unfold lmsListDec
  have h1 : (hi + 1).toNat = (hi - 1 + 1).toNat + 1 := by omega
  rw [h1, List.range_succ, List.filter_append, List.reverse_append, List.map_append]
  have h2 : ((hi - 1 + 1).toNat : Int) = hi := by omega
  by_cases hb : lmsB T n ((hi - 1 + 1).toNat : Int) = true
  · rw [h2] at hb
    simp only [List.filter_cons, List.filter_nil, h2, hb, if_pos]
    simp [h2]
    omega
  · rw [h2] at hb
    simp only [List.filter_cons, List.filter_nil, h2, hb, if_neg]
    simp [hb]

theorem lmsListDec_zero_seg (T : List Int) (n lo hi : Int) (hlo : -1 ≤ lo) (hle : lo ≤ hi)
    (hz : ∀ p : Int, lo < p → p ≤ hi → lmsB T n p = false) :
    lmsListDec T n hi = lmsListDec T n lo := by
  obtain ⟨d, hd⟩ : ∃ d : Nat, hi - lo = d := ⟨(hi - lo).toNat, by omega⟩
  induction d generalizing hi with
  | zero =>
    have h : hi = lo := by omega
    rw [h]
  | succ d ih =>
    rw [lmsListDec_succ T n hi (by omega), hz hi (by omega) le_rfl]
    simp only [if_neg (Bool.false_ne_true), List.nil_append]
    exact ih (hi - 1) (by omega) (fun p h1 h2 => hz p h1 (by omega)) (by omega)

theorem lmsListDec_one_seg (T : List Int) (n lo hi x : Int) (hlo : -1 ≤ lo) (hx1 : lo < x)
    (hx2 : x ≤ hi) (hlms : lmsB T n x = true)
    (hz : ∀ p : Int, lo < p → p ≤ hi → p ≠ x → lmsB T n p = false) :
    lmsListDec T n hi = x :: lmsListDec T n lo := by
  have step1 : lmsListDec T n hi = lmsListDec T n x := by
    rcases eq_or_lt_of_le hx2 with he | hlt
    · rw [he]
    · exact lmsListDec_zero_seg T n x hi (by omega) (by omega)
        (fun p h1 h2 => hz p (by omega) h2 (by omega))
  have step2 : lmsListDec T n x = x :: lmsListDec T n (x - 1) := by
    rw [lmsListDec_succ T n x (by omega), hlms]
    simp
  have step3 : lmsListDec T n (x - 1) = lmsListDec T n lo := by
    rcases eq_or_lt_of_le (show lo ≤ x - 1 by omega) with he | hlt
    · rw [← he]
    · exact lmsListDec_zero_seg T n lo (x - 1) hlo (by omega)
        (fun p h1 h2 => hz p h1 (by omega) (by omega))
  rw [step1, step2, step3]

/-- Master refinement of the Stage 1 discovery loop: entered at a position `i`
left by a descending skip and given enough fuel, the loop is exactly the
pending-write placement process `placeList` over the code-LMS positions `≤ i`
in decreasing order. -/
theorem scan1Outer_place (T : List Int) (B : Loc) (n : Int) (fuel : Nat) :
    ∀ (st : Scan1) (i c0 : Int),
      i ≤ n - 2 →
      (0 ≤ i → c0 = getI T i ∧ getI T i < getI T (i + 1)) →
      i + 2 ≤ (fuel : Int) →
      scan1Outer T B fuel st i c0 = placeList T B (lmsListDec T n i) st := by
  induction fuel with
  | zero =>
    intro st i c0 hn hentry hfuel
    rw [scan1Outer_neg T B 0 st i c0 (by push_cast at hfuel; omega),
      lmsListDec_neg T n i (by push_cast at hfuel; omega)]
    rfl
  | succ fuel ih =>
    intro st i c0 hn hentry hfuel
    by_cases hpos : 0 ≤ i
    · obtain ⟨hc, hasc_i⟩ := hentry hpos
      have hSi : sCode T n i = true := by
        have hrec := sCode_rec T n i hpos (by omega)
        rw [if_pos hasc_i] at hrec
        exact hrec
      have hcast : (i.toNat : Int) = i := Int.toNat_of_nonneg hpos
      have hsp := skipUp_spec T i.toNat c0 (by rw [hcast]; exact hc)
      rw [hcast] at hsp
      unfold scan1Outer
      dsimp only
      rw [if_pos hpos]
      by_cases htop : 0 ≤ (skipUp T i.toNat c0).1
      · rw [if_pos htop]
        obtain ⟨hi1lo, hi1hi, hexit0, hregU⟩ := hsp
        obtain ⟨hexv, hexd⟩ := hexit0 htop
        have hcast1 : (((skipUp T i.toNat c0).1).toNat : Int) = (skipUp T i.toNat c0).1 :=
          Int.toNat_of_nonneg htop
        have hsd := skipDown_spec T ((skipUp T i.toNat c0).1).toNat (skipUp T i.toNat c0).2
          (by rw [hcast1]; exact hexv)
        rw [hcast1] at hsd
        obtain ⟨hi2lo, hi2hi, hexit2, hregD⟩ := hsd
        have hlist : lmsListDec T n i =
            ((skipUp T i.toNat c0).1 + 1) ::
              lmsListDec T n (skipDown T ((skipUp T i.toNat c0).1).toNat
                (skipUp T i.toNat c0).2).1 := by
          apply lmsListDec_one_seg T n _ i ((skipUp T i.toNat c0).1 + 1) hi2lo (by omega)
            (by omega)
          · apply lms_of_desc T n _ (by omega) (by omega)
            · exact sCode_true_chain T n (skipUp T i.toNat c0).1 i (by omega) hregU hSi _
                (by omega) (by omega)
            · rw [add_sub_cancel_right]
              exact hexd
          · intro p hp1 hp2 hp3
            have hSL : sCode T n (skipUp T i.toNat c0).1 = false := by
              have hrec := sCode_rec T n (skipUp T i.toNat c0).1 htop (by omega)
              rw [if_neg (by omega), if_neg (by omega)] at hrec
              exact hrec
            by_cases hple : p ≤ (skipUp T i.toNat c0).1
            · exact lms_not_of_L T n p
                (sCode_false_chain T n _ _ hi2lo hregD hSL (by omega) p hp1 hple)
            · apply lms_not_of_asc T n p
              have := hregU (p - 1) (by omega) (by omega)
              rwa [sub_add_cancel] at this
        rw [hlist]
        unfold placeList
        dsimp only
        rw [add_sub_cancel_right]
        exact ih _ _ _ (by omega) hexit2 (by push_cast at hfuel ⊢; omega)
      · rw [if_neg htop]
        have hz : ∀ p : Int, (-1 : Int) < p → p ≤ i → lmsB T n p = false := by
          intro p hp1 hp2
          by_cases hp0 : p ≤ 0
          · exact lms_not_nonpos T n p hp0
          · apply lms_not_of_asc T n p
            have := hsp.2.2.2 (p - 1) (by omega) (by omega)
            rwa [sub_add_cancel] at this
        rw [lmsListDec_zero_seg T n (-1) i (by omega) (by omega) hz,
          lmsListDec_neg T n (-1) (by omega)]
        rfl
    · rw [scan1Outer_neg T B (fuel + 1) st i c0 (by omega),
        lmsListDec_neg T n i (by omega)]
      rfl

/-- Stage-level refinement: the whole Stage 1 discovery scan (zeroing plus
loop) equals the pending-write placement process over all code-LMS positions
in decreasing order, started from the zeroed `SA` with a dummy pending slot. -/
theorem stage1Scan_place (T : List Int) (B : Loc) (n : Int) (mem0 : Mem) :
    stage1Scan T B n mem0 =
      placeList T B (lmsListDec T n (n - 1))
        ⟨upFor n.toNat 0 mem0 (fun i m => saW m i 0), none, n, 0⟩ := by
  unfold stage1Scan
  dsimp only
  by_cases hn : n ≤ 0
  · have h0 : (n - 1).toNat = 0 := by omega
    rw [h0]
    have hq : skipDown T 0 (getI T (n - 1)) = (-1, getI T (n - 1)) := rfl
    rw [hq, scan1Outer_neg T B _ _ _ _ (by omega), lmsListDec_neg T n (n - 1) (by omega)]
    rfl
  · push_neg at hn
    have hcast : (((n - 1).toNat : Nat) : Int) = n - 1 := by omega
    have hsd := skipDown_spec T (n - 1).toNat (getI T (n - 1)) (by rw [hcast])
    rw [hcast] at hsd
    obtain ⟨hlo, hhi, hexit, hreg⟩ := hsd
    rw [scan1Outer_place T B n (n + 1).toNat _ _ _ (by omega) hexit (by omega)]
    have hz : ∀ p : Int,
        (skipDown T (n - 1).toNat (getI T (n - 1))).1 < p → p ≤ n - 1 →
        lmsB T n p = false := by
      intro p hp1 hp2
      exact lms_not_of_L T n p
        (sCode_false_chain T n _ (n - 1) hlo hreg (sCode_last T n (n - 1) le_rfl)
          le_rfl p hp1 hp2)
    rw [lmsListDec_zero_seg T n _ (n - 1) hlo (by omega) hz]

/-- C6: Refuted as stated, then corrected.  The spec claims that after the
Stage 1 discovery scan every discovered LMS position has been written at
`SA[--B[T[j+1]]]` and the rest of `SA[0..n)` is zero.  In fact the scan only
reserves a slot at each discovery and flushes the *previous* mark into the
*previously* reserved slot (the first flush goes to a dummy), so the last
reserved slot — the one of the leftmost LMS position — is never written and
keeps its zeroed value.  Corrected statement: the scan equals the
pending-write process `placeList` over the code-LMS positions in decreasing
order: for each position `x` met, the pending mark is flushed to the pending
slot, a slot is reserved by decrementing `B[T[x]]`, and the new pending mark
is `x - 1`; the final pending slot is left unwritten. -/
theorem C6_stage1_placement_corrected (T : List Int) (B : Loc) (n : Int) (mem0 : Mem) :
    stage1Scan T B n mem0 =
      placeList T B (lmsListDec T n (n - 1))
        ⟨upFor n.toNat 0 mem0 (fun i m => saW m i 0), none, n, 0⟩ :=
  stage1Scan_place T B n mem0

/-- Counterexample to C6 as written: `T = [0,1,0,1]` (`n = 4`) has exactly one
discovered LMS position (position 2), with `B` on the heap holding the bucket
ends `B[0] = 2`, `B[1] = 4`.  After the scan `m = 1` and the slot `--B[0] = 1`
has been reserved (the bucket of `T[2] = 0`), but all of `SA[0..4)` is still
zero: no discovered LMS position was written anywhere, contradicting the
claimed placement. -/
theorem C6_stage1_placement_counterexample :
    (stage1Scan [0, 1, 0, 1] (Loc.heap 0) 4
        ⟨fun _ => 0, fun id x =>
          if id = 0 then (if x = 0 then 2 else if x = 1 then 4 else 0) else 0⟩).m = 1 ∧
    (stage1Scan [0, 1, 0, 1] (Loc.heap 0) 4
        ⟨fun _ => 0, fun id x =>
          if id = 0 then (if x = 0 then 2 else if x = 1 then 4 else 0) else 0⟩).mem.rd
        (Loc.heap 0) 0 = 1 ∧
    (List.range 4).map (fun i =>
      (stage1Scan [0, 1, 0, 1] (Loc.heap 0) 4
        ⟨fun _ => 0, fun id x =>
          if id = 0 then (if x = 0 then 2 else if x = 1 then 4 else 0) else 0⟩).mem.sa
        (i : Int)) = [0, 0, 0, 0] := by
  refine ⟨by decide, by decide, by decide⟩

/-- The property C7 records of a recursion event: the slack handed to the
recursive call follows sais.c:484-494 (`n + fs - 2m`, reduced by `k` when
`(flags & (1|4|8)) == 0` and `k + name` fits), and the reduced string has
exactly `m` entries.  Non-recursion events carry no obligation. -/
def recOK : Ev → Prop
  | .recCall _ n fs k m name newfs flags raLen =>
      newfs = (if flags &&& 13 = 0 ∧ k + name ≤ n + fs - 2 * m
               then n + fs - 2 * m - k else n + fs - 2 * m) ∧
      raLen = m.toNat
  | _ => True

theorem recOK_freeLoc (al : AllocSt) (l : Loc) (d : Nat) :
    ∀ e ∈ (freeLoc al l d).2, recOK e := by
  cases l with
  | sa off =>
    intro e he
    simp [freeLoc] at he
  | heap id =>
    intro e he
    simp [freeLoc] at he
    subst he
    trivial

theorem recOK_iteFree (c : Prop) [Decidable c] (al : AllocSt) (l : Loc) (d : Nat) :
    ∀ e ∈ (if c then freeLoc al l d else (al, [])).2, recOK e := by
  split
  · exact recOK_freeLoc al l d
  · intro e he
    simp at he

theorem recOK_allocCB (plan : Plan) (mem : Mem) (al : AllocSt) (k : Int) (d : Nat) :
    ∀ e ∈ (allocCB plan mem al k d).2.2.2, recOK e := by
  unfold allocCB
  rcases plan with ⟨cSpec, bSpec, flags⟩
  cases cSpec <;> cases bSpec <;> dsimp only <;>
    (try (intro e he; simp at he)) <;>
    (repeat' split) <;>
    intro e he <;>
    simp at he <;>
    first
      | (subst he; trivial)
      | (rcases he with he | he <;> (subst he; trivial))
      | (rcases he with he | he | he <;> (subst he; trivial))

theorem recOK_sortStep_inl (T : List Int) (C B : Loc) (flags : Nat) (n k m j : Int)
    (b : Option Int) (depth : Nat) (mem : Mem) (al : AllocSt) (mem' : Mem) (al' : AllocSt)
    (evs : List Ev) (nm : Int)
    (h : sortStep T C B flags n k m j b depth mem al = Sum.inl (mem', al', evs, nm)) :
    ∀ e ∈ evs, recOK e := by
  unfold sortStep at h
  split at h
  · split at h
    · split at h
      · exact absurd h (by simp)
      · rename_i heq
        simp only [Sum.inl.injEq, Prod.mk.injEq] at h
        obtain ⟨-, -, hevs, -⟩ := h
        subst hevs
        intro e he
        rcases List.mem_append.mp he with he | he
        · split at heq
          · split at heq
            · simp only [Sum.inl.injEq, Prod.mk.injEq] at heq
              obtain ⟨-, -, -, hev⟩ := heq
              subst hev
              simp at he
              subst he
              trivial
            · exact absurd heq (by simp)
          · simp only [Sum.inl.injEq, Prod.mk.injEq] at heq
            obtain ⟨-, -, -, hev⟩ := heq
            subst hev
            simp at he
        · exact recOK_iteFree _ _ _ _ e he
    · simp only [Sum.inl.injEq, Prod.mk.injEq] at h
      obtain ⟨-, -, hevs, -⟩ := h
      subst hevs
      intro e he
      simp at he
  · split at h <;>
    · simp only [Sum.inl.injEq, Prod.mk.injEq] at h
      obtain ⟨-, -, hevs, -⟩ := h
      subst hevs
      intro e he
      simp at he

theorem recOK_sortStep_inr (T : List Int) (C B : Loc) (flags : Nat) (n k m j : Int)
    (b : Option Int) (depth : Nat) (mem : Mem) (al : AllocSt) (mem' : Mem) (al' : AllocSt)
    (evs : List Ev)
    (h : sortStep T C B flags n k m j b depth mem al = Sum.inr (mem', al', evs)) :
    ∀ e ∈ evs, recOK e := by
  unfold sortStep at h
  split at h
  · split at h
    · split at h
      · rename_i heq
        rw [Sum.inr.injEq] at h
        subst h
        split at heq
        · split at heq
          · exact absurd heq (by simp)
          · simp only [Sum.inr.injEq, Prod.mk.injEq] at heq
            obtain ⟨-, -, hevs⟩ := heq
            intro e he
            rw [← hevs] at he
            rcases List.mem_append.mp he with he | he
            · rcases List.mem_append.mp he with he | he
              · simp at he
                subst he
                trivial
              · split at he
                · exact recOK_freeLoc _ _ _ e he
                · simp at he
            · split at he
              · exact recOK_freeLoc _ _ _ e he
              · simp at he
        · exact absurd heq (by simp)
      · exact absurd h (by simp)
    · exact absurd h (by simp)
  · split at h <;> exact absurd h (by simp)

theorem recOK_finishSA (T : List Int) (C B : Loc) (flags : Nat) (n k m : Int) (depth : Nat)
    (mem : Mem) (al : AllocSt) :
    ∀ e ∈ (finishSA T C B flags n k m depth mem al).2.2, recOK e := by
  unfold finishSA
  dsimp only
  intro e he
  rcases List.mem_append.mp he with h | h
  · exact recOK_iteFree _ _ _ _ e h
  · exact recOK_iteFree _ _ _ _ e h

theorem recOK_stage2Glue (T : List Int) (C B : Loc) (depth : Nat) (n k m : Int)
    (flags2 : Nat) (newfs : Int) (evsPre : List Ev) (res : Option SAResult) (r : SAResult)
    (hpre : ∀ e ∈ evsPre, recOK e)
    (hres : ∀ r', res = some r' → ∀ e ∈ r'.evs, recOK e)
    (h : stage2Glue T C B depth n k m flags2 newfs evsPre res = some r) :
    ∀ e ∈ r.evs, recOK e := by
  unfold stage2Glue at h
  cases res with
  | none => exact absurd h (by simp)
  | some r' =>
    have hR := hres r' rfl
    dsimp only at h
    split at h
    · rw [Option.some.injEq] at h
      subst h
      intro e he
      dsimp only at he
      simp only [List.mem_append] at he
      rcases he with (he | he) | he
      · exact hpre e he
      · exact hR e he
      · exact recOK_iteFree _ _ _ _ e he
    · split at h
      · rename_i memF alF evsF heq3
        rw [Option.some.injEq] at h
        subst h
        intro e he
        dsimp only at he
        simp only [List.mem_append] at he
        rcases he with (he | he) | he
        · exact hpre e he
        · exact hR e he
        · split at heq3
          · split at heq3
            · exact absurd heq3 (by simp)
            · simp only [Sum.inr.injEq, Prod.mk.injEq] at heq3
              obtain ⟨-, -, hevs⟩ := heq3
              rw [← hevs] at he
              simp at he
              subst he
              trivial
          · exact absurd heq3 (by simp)
      · rename_i C2 B2 mem9 al5 evs2 heq3
        have hevs2 : ∀ e ∈ evs2, recOK e := by
          intro e he
          split at heq3
          · split at heq3
            · simp only [Sum.inl.injEq, Prod.mk.injEq] at heq3
              obtain ⟨-, -, -, hevs⟩ := heq3
              rw [← hevs] at he
              simp at he
              subst he
              trivial
            · exact absurd heq3 (by simp)
          · simp only [Sum.inl.injEq, Prod.mk.injEq] at heq3
            obtain ⟨-, -, -, hevs⟩ := heq3
            rw [← hevs] at he
            simp at he
        split at h
        · rename_i memF alF evsF heq4
          rw [Option.some.injEq] at h
          subst h
          intro e he
          dsimp only at he
          simp only [List.mem_append] at he
          rcases he with ((he | he) | he) | he
          · exact hpre e he
          · exact hR e he
          · exact hevs2 e he
          · split at heq4
            · split at heq4
              · exact absurd heq4 (by simp)
              · simp only [Sum.inr.injEq, Prod.mk.injEq] at heq4
                obtain ⟨-, -, hevs⟩ := heq4
                rw [← hevs] at he
                rcases List.mem_append.mp he with he | he
                · simp at he
                  subst he
                  trivial
                · exact recOK_iteFree _ _ _ _ e he
            · exact absurd heq4 (by simp)
        · rename_i B3 mem10 al6 evs3 heq4
          rw [Option.some.injEq] at h
          subst h
          intro e he
          dsimp only at he
          simp only [List.mem_append] at he
          rcases he with (((he | he) | he) | he) | he
          · exact hpre e he
          · exact hR e he
          · exact hevs2 e he
          · split at heq4
            · split at heq4
              · simp only [Sum.inl.injEq, Prod.mk.injEq] at heq4
                obtain ⟨-, -, -, hevs⟩ := heq4
                rw [← hevs] at he
                simp at he
                subst he
                trivial
              · exact absurd heq4 (by simp)
            · simp only [Sum.inl.injEq, Prod.mk.injEq] at heq4
              obtain ⟨-, -, -, hevs⟩ := heq4
              rw [← hevs] at he
              simp at he
          · exact recOK_finishSA _ _ _ _ _ _ _ _ _ _ e he

theorem or8_and13_ne (a : Nat) : (a ||| 8) &&& 13 ≠ 0 := by
  intro h
  have h3 := congrArg (fun x => x.testBit 3) h
  simp only [Nat.testBit_and, Nat.testBit_or] at h3
  rw [show Nat.testBit 8 3 = true from rfl, show Nat.testBit 13 3 = true from rfl,
    show Nat.testBit 0 3 = false from rfl] at h3
  simp at h3

theorem newfs_formula (flags : Nat) (k name newfs0 : Int) :
    ((if flags &&& 13 = 0 then
        (if k + name ≤ newfs0 then (newfs0 - k, flags) else (newfs0, flags ||| 8))
      else (newfs0, flags) : Int × Nat)).1 =
      (if ((if flags &&& 13 = 0 then
          (if k + name ≤ newfs0 then (newfs0 - k, flags) else (newfs0, flags ||| 8))
        else (newfs0, flags) : Int × Nat)).2 &&& 13 = 0 ∧ k + name ≤ newfs0
       then newfs0 - k else newfs0) := by
  by_cases h13 : flags &&& 13 = 0
  · rw [if_pos h13]
    by_cases hle : k + name ≤ newfs0
    · rw [if_pos hle]
      dsimp only
      rw [if_pos ⟨h13, hle⟩]
    · rw [if_neg hle]
      dsimp only
      rw [if_neg (fun hc => or8_and13_ne flags hc.1)]
  · rw [if_neg h13]
    dsimp only
    rw [if_neg (fun hc => h13 hc.1)]

theorem recOK_preRec (C B : Loc) (flags : Nat) (al : AllocSt) (d : Nat) :
    (∀ e ∈ (preRecFrees C B flags al d).2.1, recOK e) ∧
    (∀ e ∈ (preRecFrees C B flags al d).2.2, recOK e) := by
  unfold preRecFrees
  dsimp only
  exact ⟨recOK_iteFree _ _ _ _, recOK_iteFree _ _ _ _⟩

/-- Every ghost event of a completed `computeSA` run satisfies `recOK`: in
particular every recursion event records a slack following the source's
formula and a reduced string of exactly `m` entries. -/
theorem computeSA_evs_recOK (fuel : Nat) :
    ∀ (depth : Nat) (T : List Int) (mem : Mem) (al : AllocSt) (fs n k cs : Int)
      (r : SAResult),
      computeSA fuel depth T mem al fs n k cs = some r → ∀ e ∈ r.evs, recOK e := by
  induction fuel with
  | zero =>
    intro depth T mem al fs n k cs r h
    exact absurd h (by simp [computeSA])
  | succ fuel ih =>
    intro depth T mem al fs n k cs r h
    unfold computeSA at h
    dsimp only at h
    have hCB := recOK_allocCB (wsPlan n fs k) mem al k depth
    split at h
    · rename_i memF alF evsF heq1
      rw [Option.some.injEq] at h
      subst h
      intro e he
      dsimp only at he
      rw [heq1] at hCB
      exact hCB e he
    · rename_i C B mem1 al1 evs0 heq1
      rw [heq1] at hCB
      split at h
      · rename_i memF alF evsF heq2
        rw [Option.some.injEq] at h
        subst h
        intro e he
        dsimp only at he
        rcases List.mem_append.mp he with he | he
        · exact hCB e he
        · exact recOK_sortStep_inr _ _ _ _ _ _ _ _ _ _ _ _ _ _ _ heq2 e he
      · rename_i mem4 al2 evs1 name heq2
        have hSS := recOK_sortStep_inl _ _ _ _ _ _ _ _ _ _ _ _ _ _ _ _ heq2
        split at h
        · -- name < m : the recursive path
          refine recOK_stage2Glue _ _ _ _ _ _ _ _ _ _ _ _ ?_ ?_ h
          · intro e he
            simp only [List.mem_append, List.mem_singleton] at he
            rcases he with (((he | he) | he) | he) | he
            · exact hCB e he
            · exact hSS e he
            · exact (recOK_preRec _ _ _ _ _).1 e he
            · exact (recOK_preRec _ _ _ _ _).2 e he
            · subst he
              exact ⟨newfs_formula _ _ _ _, by simp⟩
          · intro r' hr'
            exact ih _ _ _ _ _ _ _ _ r' hr'
        · -- name = m : straight to Stage 3
          rw [Option.some.injEq] at h
          subst h
          intro e he
          dsimp only at he
          simp only [List.mem_append] at he
          rcases he with (he | he) | he
          · exact hCB e he
          · exact hSS e he
          · exact recOK_finishSA _ _ _ _ _ _ _ _ _ _ e he

/-- C7: Refuted as stated, then corrected.  The spec claims the slack passed
to the recursive call is always `newfs = n + fs - 2m` and the reduced string
occupies the tail `SA[m + newfs .. n + fs)`.  In fact, when
`(flags & (1|4|8)) == 0` and `k + name ≤ n + fs - 2m`, the code reserves `k`
cells for the bucket array inside the workspace and passes
`newfs = n + fs - 2m - k` (sais.c:485-489), so the reduced string `RA` of
length `m` sits at `SA[m + newfs ..)`, which is then not the tail of
`SA[0 .. n + fs)`.  Corrected statement: every recursion event of any
completed run records `newfs = n + fs - 2m - k` exactly when
`flags & 13 = 0` and `k + name ≤ n + fs - 2m`, and `newfs = n + fs - 2m`
otherwise, with a reduced string of exactly `m` entries. -/
theorem C7_recursion_slack_corrected (fuel depth : Nat) (T : List Int) (mem : Mem)
    (al : AllocSt) (fs n k cs : Int) (d : Nat) (rn rfs rk rm rname rnewfs : Int)
    (rflags : Nat) (rraLen : Nat)
    (h : Ev.recCall d rn rfs rk rm rname rnewfs rflags rraLen ∈
      ((computeSA fuel depth T mem al fs n k cs).map SAResult.evs).getD []) :
    rnewfs = (if rflags &&& 13 = 0 ∧ rk + rname ≤ rn + rfs - 2 * rm
              then rn + rfs - 2 * rm - rk else rn + rfs - 2 * rm) ∧
    rraLen = rm.toNat := by
  cases hq : computeSA fuel depth T mem al fs n k cs with
  | none =>
    rw [hq] at h
    simp at h
  | some r =>
    rw [hq] at h
    simp only [Option.map_some', Option.getD_some] at h
    exact computeSA_evs_recOK fuel depth T mem al fs n k cs r hq _ h

/-- Witness for C7: the run on `T = [1,0,1,0,1,0,1]` (`n = 7`, `k = 4`,
`fs = 0`) recurses once, with `m = 3`, `name = 2`, `flags = 3` and
`newfs = 7 + 0 - 2*3 = 1`. -/
theorem C7_recursion_slack_witness :
    (Ev.recCall 0 7 0 4 3 2 1 3 3 ∈
      ((computeSA 8 0 [1,0,1,0,1,0,1] mem0 al0 0 7 4 1).map SAResult.evs).getD []) ∧
    ((1 : Int) = (if (3 : Nat) &&& 13 = 0 ∧ (4 : Int) + 2 ≤ 7 + 0 - 2 * 3
              then 7 + 0 - 2 * 3 - 4 else 7 + 0 - 2 * 3) ∧
      (3 : Nat) = (3 : Int).toNat) :=
  ⟨by decide,
   C7_recursion_slack_corrected 8 0 [1,0,1,0,1,0,1] mem0 al0 0 7 4 1
     0 7 0 4 3 2 1 3 3 (by decide)⟩

set_option maxRecDepth 100000 in
/-- Counterexample to C7 as written: on `T = [1,0,1,0,1,0,1,0]` with
`n = 8`, `k = 257`, `fs = 514` (workspace regime `flags = 0`), the run
recurses with `m = 3`, `name = 2` and records `newfs = 259`, while the spec
predicts `n + fs - 2m = 516`: the bucket-array reservation `- k` is missing
from the spec's formula, and the reduced string then does not occupy the
tail `SA[n + fs - m .. n + fs)`. -/
theorem C7_recursion_slack_counterexample :
    Ev.recCall 0 8 514 257 3 2 259 0 3 ∈
      ((computeSA 9 0 [1,0,1,0,1,0,1,0] mem0 al0 514 8 257 1).map SAResult.evs).getD [] ∧
    (259 : Int) ≠ 8 + 514 - 2 * 3 := by
  refine ⟨by decide, by decide⟩

/-- The heap block ids a buffer location occupies. -/
def Loc.ids : Loc → List Nat
  | .heap id => [id]
  | .sa _ => []

theorem Loc.ids_heap (id : Nat) : (Loc.heap id).ids = [id] := rfl

/-- Allocator well-formedness: every live id is below the fresh counter. -/
def WFal (al : AllocSt) : Prop := ∀ id ∈ al.live, id < al.nextId

theorem or8_and (f m : Nat) (hm : m &&& 8 = 0) : (f ||| 8) &&& m = f &&& m := by
  rw [Nat.and_comm, Nat.and_or_distrib_left, hm, Nat.or_zero, Nat.and_comm]

theorem allocBuf_some_spec (mem : Mem) (al : AllocSt) (size : Int) (id : Nat) (mem1 : Mem)
    (al1 : AllocSt) (h : allocBuf mem al size = (some id, mem1, al1)) :
    id = al.nextId ∧ al1.live = al.live ++ [id] ∧ al1.nextId = al.nextId + 1 := by
  unfold allocBuf at h
  dsimp only at h
  split at h
  · simp only [Prod.mk.injEq, Option.some.injEq] at h
    obtain ⟨hid, -, hal⟩ := h
    subst hid
    rw [← hal]
    exact ⟨rfl, rfl, rfl⟩
  · exact absurd h (by simp)

theorem allocBuf_none_spec (mem : Mem) (al : AllocSt) (size : Int) (mem1 : Mem)
    (al1 : AllocSt) (h : allocBuf mem al size = (none, mem1, al1)) :
    al1.live = al.live ∧ al1.nextId = al.nextId := by
  unfold allocBuf at h
  dsimp only at h
  split at h
  · exact absurd h (by simp)
  · simp only [Prod.mk.injEq] at h
    obtain ⟨-, -, hal⟩ := h
    rw [← hal]
    exact ⟨rfl, rfl⟩

theorem erase_append_fresh (l : List Nat) (id : Nat) (h : id ∉ l) :
    (l ++ [id]).erase id = l := by
  rw [List.erase_append_right _ h]
  simp

/-- Ownership invariant between the allocator state `al0` at entry of
`computeSA` and a later state `al` of the same invocation: the live set has
grown by exactly the scratch blocks of `C` (when `flags & 5`) and `B` (when
`flags & 2`), both fresh with respect to `al0`. -/
structure CBInv (C B : Loc) (flags : Nat) (al0 al : AllocSt) : Prop where
  live_eq : al.live = (al0.live ++ (if flags &&& 5 ≠ 0 then C.ids else [])) ++
      (if flags &&& 2 ≠ 0 then B.ids else [])
  next_le : al0.nextId ≤ al.nextId
  wfal : WFal al
  wf0 : WFal al0
  cHeap : flags &&& 5 ≠ 0 → ∃ cid, C = Loc.heap cid ∧ al0.nextId ≤ cid
  bHeap : flags &&& 2 ≠ 0 → ∃ bid, B = Loc.heap bid ∧ al0.nextId ≤ bid ∧
      (flags &&& 5 ≠ 0 → ∀ cid, C = Loc.heap cid → bid ≠ cid)

/-- The workspace plan's buffer placements agree with its flag bits. -/
theorem wsPlan_bits (n fs k : Int) :
    ((wsPlan n fs k).cSpec = BufSpec.heapNew ↔ (wsPlan n fs k).flags &&& 5 ≠ 0) ∧
    ((wsPlan n fs k).bSpec = BufSpec.heapNew ↔ (wsPlan n fs k).flags &&& 2 ≠ 0) ∧
    ((wsPlan n fs k).flags &&& 4 ≠ 0 →
      (wsPlan n fs k).flags &&& 5 ≠ 0 ∧ (wsPlan n fs k).flags &&& 1 = 0 ∧
      (wsPlan n fs k).flags &&& 2 = 0 ∧ (wsPlan n fs k).bSpec = BufSpec.sameAsC) ∧
    ((wsPlan n fs k).flags &&& 1 ≠ 0 →
      (wsPlan n fs k).flags &&& 5 ≠ 0 ∧ (wsPlan n fs k).flags &&& 4 = 0) ∧
    ((wsPlan n fs k).flags &&& 5 ≠ 0 →
      (wsPlan n fs k).flags &&& 1 ≠ 0 ∨ (wsPlan n fs k).flags &&& 4 ≠ 0) ∧
    (wsPlan n fs k).cSpec ≠ BufSpec.sameAsC := by
  unfold wsPlan
  dsimp only
  repeat' split
  all_goals try simp
  all_goals decide

theorem allocFail_not_freeLoc (al : AllocSt) (l : Loc) (d : Nat) :
    ∀ (t : BufTag) (s : Int) (d' : Nat), Ev.allocFail t s d' ∉ (freeLoc al l d).2 := by
  intro t s d'
  cases l <;> simp [freeLoc]

theorem allocFail_not_iteFree (c : Prop) [Decidable c] (al : AllocSt) (l : Loc) (d : Nat) :
    ∀ (t : BufTag) (s : Int) (d' : Nat),
      Ev.allocFail t s d' ∉ (if c then freeLoc al l d else (al, [])).2 := by
  intro t s d'
  split
  · exact allocFail_not_freeLoc al l d t s d'
  · simp

/-- Releasing `C` (under `flags & 5`) and then `B` (under `flags & 2`)
restores the entry live set. -/
theorem freeCB_core (C B : Loc) (flags : Nat) (al0 al : AllocSt) (d : Nat)
    (inv : CBInv C B flags al0 al) :
    ((if flags &&& 2 ≠ 0 then
        freeLoc (if flags &&& 5 ≠ 0 then freeLoc al C d else (al, [])).1 B d
      else ((if flags &&& 5 ≠ 0 then freeLoc al C d else (al, [])).1, [])).1).live = al0.live ∧
    ((if flags &&& 2 ≠ 0 then
        freeLoc (if flags &&& 5 ≠ 0 then freeLoc al C d else (al, [])).1 B d
      else ((if flags &&& 5 ≠ 0 then freeLoc al C d else (al, [])).1, [])).1).nextId =
      al.nextId := by
  have hlive := inv.live_eq
  by_cases h5 : flags &&& 5 ≠ 0
  · obtain ⟨cid, hC, hcid⟩ := inv.cHeap h5
    have hcid0 : cid ∉ al0.live := fun hm => absurd (inv.wf0 cid hm) (by omega)
    subst hC
    rw [if_pos h5] at hlive ⊢
    simp only [Loc.ids] at hlive
    by_cases h2 : flags &&& 2 ≠ 0
    · obtain ⟨bid, hB, hbid, hbc⟩ := inv.bHeap h2
      have hbid0 : bid ∉ al0.live := fun hm => absurd (inv.wf0 bid hm) (by omega)
      subst hB
      rw [if_pos h2] at hlive ⊢
      simp only [Loc.ids] at hlive
      simp only [freeLoc]
      refine ⟨?_, trivial⟩
      rw [hlive, List.erase_append_left _ (by simp), erase_append_fresh _ _ hcid0,
        erase_append_fresh _ _ hbid0]
    · rw [if_neg h2] at hlive ⊢
      simp only [List.append_nil] at hlive
      simp only [freeLoc]
      refine ⟨?_, trivial⟩
      rw [hlive, erase_append_fresh _ _ hcid0]
  · rw [if_neg h5] at hlive ⊢
    simp only [List.append_nil] at hlive
    by_cases h2 : flags &&& 2 ≠ 0
    · obtain ⟨bid, hB, hbid, hbc⟩ := inv.bHeap h2
      have hbid0 : bid ∉ al0.live := fun hm => absurd (inv.wf0 bid hm) (by omega)
      subst hB
      rw [if_pos h2] at hlive ⊢
      simp only [Loc.ids] at hlive
      simp only [freeLoc]
      refine ⟨?_, trivial⟩
      rw [hlive, erase_append_fresh _ _ hbid0]
    · rw [if_neg h2] at hlive ⊢
      simp only [List.append_nil] at hlive
      exact ⟨hlive, rfl⟩

theorem CBInv_transport (C B : Loc) (flags : Nat) (al0 al al' : AllocSt)
    (inv : CBInv C B flags al0 al) (hl : al'.live = al.live) (hn : al.nextId ≤ al'.nextId) :
    CBInv C B flags al0 al' where
  live_eq := hl.trans inv.live_eq
  next_le := le_trans inv.next_le hn
  wfal := fun id hid => lt_of_lt_of_le (inv.wfal id (hl ▸ hid)) hn
  wf0 := inv.wf0
  cHeap := inv.cHeap
  bHeap := inv.bHeap

theorem allocCB_none_spec (n fs k : Int) (mem : Mem) (al : AllocSt) (depth : Nat)
    (memF : Mem) (alF : AllocSt) (evsF : List Ev) (hwf : WFal al)
    (h : allocCB (wsPlan n fs k) mem al k depth = (none, memF, alF, evsF)) :
    alF.live = al.live ∧ al.nextId ≤ alF.nextId ∧
    (∃ (t : BufTag) (s : Int) (d : Nat), Ev.allocFail t s d ∈ evsF) := by
  have hbits := wsPlan_bits n fs k
  unfold allocCB at h
  split at h
  · exact absurd h (by simp)
  · exact absurd h (by simp)
  · rename_i co heqc heqb
    split at h
    · exact absurd h (by simp)
    · rename_i mem1 al1 heqa
      simp only [Prod.mk.injEq] at h
      obtain ⟨-, -, hal, hevs⟩ := h
      obtain ⟨hl, hn⟩ := allocBuf_none_spec _ _ _ _ _ heqa
      subst hal hevs
      exact ⟨hl, le_of_eq hn.symm, ⟨.bufB, k, depth, by simp⟩⟩
  · rename_i bs heqc
    split at h
    · rename_i mem1 al1 heqa
      simp only [Prod.mk.injEq] at h
      obtain ⟨-, -, hal, hevs⟩ := h
      obtain ⟨hl, hn⟩ := allocBuf_none_spec _ _ _ _ _ heqa
      subst hal hevs
      exact ⟨hl, le_of_eq hn.symm, ⟨.bufC, k, depth, by simp⟩⟩
    · rename_i cid mem1 al1 heqa
      obtain ⟨hcid, hl1, hn1⟩ := allocBuf_some_spec _ _ _ _ _ _ heqa
      split at h
      · exact absurd h (by simp)
      · exact absurd h (by simp)
      · split at h
        · exact absurd h (by simp)
        · rename_i mem2 al2 heqa2
          simp only [Prod.mk.injEq] at h
          obtain ⟨-, -, hal, hevs⟩ := h
          obtain ⟨hl2, hn2⟩ := allocBuf_none_spec _ _ _ _ _ heqa2
          subst hal hevs
          dsimp only
          constructor
          · rw [hl2, hl1]
            apply erase_append_fresh
            intro hm
            have h' := hwf cid hm
            omega
          · exact ⟨by omega, ⟨.bufB, k, depth, by simp⟩⟩
  · rename_i heqc
    exact absurd heqc (by
      intro hc
      exact hbits.2.2.2.2.2 (by rw [hc]))

theorem allocCB_some_spec (n fs k : Int) (mem : Mem) (al : AllocSt) (depth : Nat)
    (C B : Loc) (mem1 : Mem) (al1 : AllocSt) (evs0 : List Ev) (hwf : WFal al)
    (h : allocCB (wsPlan n fs k) mem al k depth = (some (C, B), mem1, al1, evs0)) :
    CBInv C B (wsPlan n fs k).flags al al1 ∧
    (∀ (t : BufTag) (s : Int) (d : Nat), Ev.allocFail t s d ∉ evs0) := by
  have hbits := wsPlan_bits n fs k
  obtain ⟨hc5, hb2, -, -, -, -⟩ := hbits
  unfold allocCB at h
  split at h
  · rename_i co bo heqc heqb
    have h5 : (wsPlan n fs k).flags &&& 5 = 0 := by
      by_contra h5
      rw [heqc] at hc5
      exact absurd (hc5.mpr h5) (by simp)
    have h2 : (wsPlan n fs k).flags &&& 2 = 0 := by
      by_contra h2
      rw [heqb] at hb2
      exact absurd (hb2.mpr h2) (by simp)
    simp only [Prod.mk.injEq, Option.some.injEq] at h
    obtain ⟨⟨hC, hB⟩, -, hal, hevs⟩ := h
    subst hC hB hal hevs
    refine ⟨⟨by simp [h5, h2], le_refl _, hwf, hwf,
      fun hx => absurd h5 hx.elim, fun hx => absurd h2 hx.elim⟩, by simp⟩
  · rename_i co heqc heqb
    have h5 : (wsPlan n fs k).flags &&& 5 = 0 := by
      by_contra h5
      rw [heqc] at hc5
      exact absurd (hc5.mpr h5) (by simp)
    have h2 : (wsPlan n fs k).flags &&& 2 = 0 := by
      by_contra h2
      rw [heqb] at hb2
      exact absurd (hb2.mpr h2) (by simp)
    simp only [Prod.mk.injEq, Option.some.injEq] at h
    obtain ⟨⟨hC, hB⟩, -, hal, hevs⟩ := h
    subst hC hB hal hevs
    refine ⟨⟨by simp [h5, h2], le_refl _, hwf, hwf,
      fun hx => absurd h5 hx.elim, fun hx => absurd h2 hx.elim⟩, by simp⟩
  · rename_i co heqc heqb
    have h5 : (wsPlan n fs k).flags &&& 5 = 0 := by
      by_contra h5
      rw [heqc] at hc5
      exact absurd (hc5.mpr h5) (by simp)
    have h2 : (wsPlan n fs k).flags &&& 2 ≠ 0 := hb2.mp heqb
    split at h
    · rename_i bid memx alx heqa
      obtain ⟨hbid, hl1, hn1⟩ := allocBuf_some_spec _ _ _ _ _ _ heqa
      simp only [Prod.mk.injEq, Option.some.injEq] at h
      obtain ⟨⟨hC, hB⟩, -, hal, hevs⟩ := h
      subst hC hB hal hevs
      refine ⟨⟨?_, by omega, ?_, hwf, fun hx => absurd h5 hx.elim, ?_⟩, by simp⟩
      · rw [hl1]
        simp [h5, h2, Loc.ids]
      · intro id hid
        rw [hl1] at hid
        rcases List.mem_append.mp hid with hid | hid
        · have := hwf id hid
          omega
        · simp at hid
          omega
      · intro _
        exact ⟨bid, rfl, by omega, fun h5x => absurd h5 h5x⟩
    · exact absurd h (by simp)
  · rename_i bs heqc
    have h5 : (wsPlan n fs k).flags &&& 5 ≠ 0 := hc5.mp heqc
    split at h
    · exact absurd h (by simp)
    · rename_i cid memx alx heqa
      obtain ⟨hcid, hl1, hn1⟩ := allocBuf_some_spec _ _ _ _ _ _ heqa
      split at h
      · rename_i bo heqb
        have h2 : (wsPlan n fs k).flags &&& 2 = 0 := by
          by_contra h2
          rw [heqb] at hb2
          exact absurd (hb2.mpr h2) (by simp)
        simp only [Prod.mk.injEq, Option.some.injEq] at h
        obtain ⟨⟨hC, hB⟩, -, hal, hevs⟩ := h
        subst hC hB hal hevs
        refine ⟨⟨?_, by omega, ?_, hwf, ?_, fun hx => absurd h2 hx.elim⟩, by simp⟩
        · rw [hl1]
          simp [h5, h2, Loc.ids]
        · intro id hid
          rw [hl1] at hid
          rcases List.mem_append.mp hid with hid | hid
          · have := hwf id hid
            omega
          · simp at hid
            omega
        · intro _
          exact ⟨cid, rfl, by omega⟩
      · rename_i heqb
        have h2 : (wsPlan n fs k).flags &&& 2 = 0 := by
          by_contra h2
          rw [heqb] at hb2
          exact absurd (hb2.mpr h2) (by simp)
        simp only [Prod.mk.injEq, Option.some.injEq] at h
        obtain ⟨⟨hC, hB⟩, -, hal, hevs⟩ := h
        subst hC hB hal hevs
        refine ⟨⟨?_, by omega, ?_, hwf, ?_, fun hx => absurd h2 hx.elim⟩, by simp⟩
        · rw [hl1]
          simp [h5, h2, Loc.ids]
        · intro id hid
          rw [hl1] at hid
          rcases List.mem_append.mp hid with hid | hid
          · have := hwf id hid
            omega
          · simp at hid
            omega
        · intro _
          exact ⟨cid, rfl, by omega⟩
      · rename_i heqb
        have h2 : (wsPlan n fs k).flags &&& 2 ≠ 0 := hb2.mp heqb
        split at h
        · rename_i bid memy aly heqa2
          obtain ⟨hbid, hl2, hn2⟩ := allocBuf_some_spec _ _ _ _ _ _ heqa2
          simp only [Prod.mk.injEq, Option.some.injEq] at h
          obtain ⟨⟨hC, hB⟩, -, hal, hevs⟩ := h
          subst hC hB hal hevs
          refine ⟨⟨?_, by omega, ?_, hwf, ?_, ?_⟩, by simp⟩
          · rw [hl2, hl1]
            simp [h5, h2, Loc.ids]
          · intro id hid
            rw [hl2, hl1] at hid
            rcases List.mem_append.mp hid with hid | hid
            · rcases List.mem_append.mp hid with hid | hid
              · have := hwf id hid
                omega
              · simp at hid
                omega
            · simp at hid
              omega
          · intro _
            exact ⟨cid, rfl, by omega⟩
          · intro _
            refine ⟨bid, rfl, by omega, ?_⟩
            intro _ cid' hcc
            have hcc' : cid = cid' := by injection hcc
            omega
        · exact absurd h (by simp)
  · exact absurd h (by simp)

theorem sortStep_alloc_inl (T : List Int) (C B : Loc) (flags : Nat) (n k m j : Int)
    (b : Option Int) (depth : Nat) (mem : Mem) (al : AllocSt) (mem4 : Mem) (al2 : AllocSt)
    (evs1 : List Ev) (nm : Int) (hwf : WFal al)
    (h : sortStep T C B flags n k m j b depth mem al = Sum.inl (mem4, al2, evs1, nm)) :
    al2.live = al.live ∧ al.nextId ≤ al2.nextId ∧
    (∀ (t : BufTag) (s : Int) (d : Nat), Ev.allocFail t s d ∉ evs1) := by
  unfold sortStep at h
  split at h
  · split at h
    · split at h
      · exact absurd h (by simp)
      · rename_i D mem1 al1 evD heq
        simp only [Sum.inl.injEq, Prod.mk.injEq] at h
        obtain ⟨-, hal, hevs, -⟩ := h
        subst hal hevs
        split at heq
        · rename_i h16
          split at heq
          · rename_i did memx alx heqa
            obtain ⟨hdid, hl1, hn1⟩ := allocBuf_some_spec _ _ _ _ _ _ heqa
            simp only [Sum.inl.injEq, Prod.mk.injEq] at heq
            obtain ⟨hD, hmem, halx, hevD⟩ := heq
            subst hD hmem halx hevD
            rw [if_pos h16]
            simp only [freeLoc]
            refine ⟨?_, by omega, ?_⟩
            · rw [hl1]
              apply erase_append_fresh
              intro hm
              have h' := hwf did hm
              omega
            · intro t s d hm
              rcases List.mem_append.mp hm with hm | hm
              · simp at hm
              · simp at hm
          · exact absurd heq (by simp)
        · rename_i h16
          simp only [Sum.inl.injEq, Prod.mk.injEq] at heq
          obtain ⟨-, hmem, hal1, hevD⟩ := heq
          subst hal1 hevD
          rw [if_neg h16]
          exact ⟨rfl, le_refl _, by simp⟩
    · simp only [Sum.inl.injEq, Prod.mk.injEq] at h
      obtain ⟨-, hal, hevs, -⟩ := h
      subst hal hevs
      exact ⟨rfl, le_refl _, by simp⟩
  · split at h <;>
    · simp only [Sum.inl.injEq, Prod.mk.injEq] at h
      obtain ⟨-, hal, hevs, -⟩ := h
      subst hal hevs
      exact ⟨rfl, le_refl _, by simp⟩

theorem sortStep_alloc_inr (T : List Int) (C B : Loc) (flags : Nat) (n k m j : Int)
    (b : Option Int) (depth : Nat) (mem : Mem) (al al0 : AllocSt) (memF : Mem)
    (alF : AllocSt) (evsF : List Ev) (inv : CBInv C B flags al0 al)
    (h : sortStep T C B flags n k m j b depth mem al = Sum.inr (memF, alF, evsF)) :
    alF.live = al0.live ∧ al0.nextId ≤ alF.nextId ∧
    (∃ (t : BufTag) (s : Int) (d : Nat), Ev.allocFail t s d ∈ evsF) := by
  unfold sortStep at h
  split at h
  · split at h
    · split at h
      · rename_i fail heq
        rw [Sum.inr.injEq] at h
        subst h
        split at heq
        · split at heq
          · exact absurd heq (by simp)
          · rename_i memx alx heqa
            obtain ⟨hlx, hnx⟩ := allocBuf_none_spec _ _ _ _ _ heqa
            dsimp only at heq
            simp only [Sum.inr.injEq, Prod.mk.injEq] at heq
            obtain ⟨-, halF, hevsF⟩ := heq
            have inv1 := CBInv_transport C B flags al0 al alx inv hlx (le_of_eq hnx.symm)
            have hcore := freeCB_core C B flags al0 alx depth inv1
            rw [← halF]
            refine ⟨hcore.1, ?_, ?_⟩
            · rw [hcore.2, hnx]
              exact inv.next_le
            · rw [← hevsF]
              exact ⟨.bufD, 2 * k, depth, by simp⟩
        · exact absurd heq (by simp)
      · exact absurd h (by simp)
    · exact absurd h (by simp)
  · split at h <;> exact absurd h (by simp)

theorem finishSA_alloc (T : List Int) (C B : Loc) (flags : Nat) (n k m : Int) (depth : Nat)
    (mem : Mem) (al al0 : AllocSt) (inv : CBInv C B flags al0 al) :
    (finishSA T C B flags n k m depth mem al).2.1.live = al0.live ∧
    (finishSA T C B flags n k m depth mem al).2.1.nextId = al.nextId ∧
    (∀ (t : BufTag) (s : Int) (d : Nat),
      Ev.allocFail t s d ∉ (finishSA T C B flags n k m depth mem al).2.2) := by
  unfold finishSA
  dsimp only
  have hcore := freeCB_core C B flags al0 al depth inv
  refine ⟨hcore.1, hcore.2, ?_⟩
  intro t s d hm
  rcases List.mem_append.mp hm with hx | hx
  · exact allocFail_not_iteFree _ _ _ _ t s d hx
  · exact allocFail_not_iteFree _ _ _ _ t s d hx

theorem nf_flags_cases (flags : Nat) (k name newfs0 : Int) :
    ((if flags &&& 13 = 0 then
        (if k + name ≤ newfs0 then (newfs0 - k, flags) else (newfs0, flags ||| 8))
      else (newfs0, flags) : Int × Nat)).2 = flags ∨
    ((if flags &&& 13 = 0 then
        (if k + name ≤ newfs0 then (newfs0 - k, flags) else (newfs0, flags ||| 8))
      else (newfs0, flags) : Int × Nat)).2 = flags ||| 8 := by
  by_cases h13 : flags &&& 13 = 0
  · rw [if_pos h13]
    by_cases hle : k + name ≤ newfs0
    · rw [if_pos hle]
      exact Or.inl rfl
    · rw [if_neg hle]
      exact Or.inr rfl
  · rw [if_neg h13]
    exact Or.inl rfl

/-- Releasing `C` (under `flags & 4`) and `B` (under `flags & 2`) before the
recursion leaves exactly the `flags & 1` block live. -/
theorem preRec_free (C B : Loc) (flags : Nat) (al0 al : AllocSt) (d : Nat)
    (inv : CBInv C B flags al0 al)
    (h45 : flags &&& 4 ≠ 0 → flags &&& 5 ≠ 0 ∧ flags &&& 1 = 0)
    (h15 : flags &&& 5 ≠ 0 → flags &&& 1 ≠ 0 ∨ flags &&& 4 ≠ 0)
    (h1_5 : flags &&& 1 ≠ 0 → flags &&& 5 ≠ 0) :
    ((if flags &&& 2 ≠ 0 then
        freeLoc (if flags &&& 4 ≠ 0 then freeLoc al C d else (al, [])).1 B d
      else ((if flags &&& 4 ≠ 0 then freeLoc al C d else (al, [])).1, [])).1).live =
      al0.live ++ (if flags &&& 1 ≠ 0 then C.ids else []) ∧
    ((if flags &&& 2 ≠ 0 then
        freeLoc (if flags &&& 4 ≠ 0 then freeLoc al C d else (al, [])).1 B d
      else ((if flags &&& 4 ≠ 0 then freeLoc al C d else (al, [])).1, [])).1).nextId =
      al.nextId := by
  have hlive := inv.live_eq
  by_cases h4 : flags &&& 4 ≠ 0
  · obtain ⟨h5, h1⟩ := h45 h4
    obtain ⟨cid, hC, hcid⟩ := inv.cHeap h5
    have hcid0 : cid ∉ al0.live := fun hm => absurd (inv.wf0 cid hm) (by omega)
    subst hC
    rw [if_pos h5] at hlive
    simp only [Loc.ids] at hlive
    rw [if_pos h4, if_neg (by omega : ¬flags &&& 1 ≠ 0), List.append_nil]
    by_cases h2 : flags &&& 2 ≠ 0
    · obtain ⟨bid, hB, hbid, hbc⟩ := inv.bHeap h2
      have hbid0 : bid ∉ al0.live := fun hm => absurd (inv.wf0 bid hm) (by omega)
      subst hB
      rw [if_pos h2] at hlive
      simp only [Loc.ids] at hlive
      rw [if_pos h2]
      simp only [freeLoc]
      refine ⟨?_, trivial⟩
      rw [hlive, List.erase_append_left _ (by simp), erase_append_fresh _ _ hcid0,
        erase_append_fresh _ _ hbid0]
    · rw [if_neg h2] at hlive
      simp only [List.append_nil] at hlive
      rw [if_neg h2]
      simp only [freeLoc]
      refine ⟨?_, trivial⟩
      rw [hlive, erase_append_fresh _ _ hcid0]
  · rw [if_neg h4]
    have hCpart : (if flags &&& 5 ≠ 0 then C.ids else []) =
        (if flags &&& 1 ≠ 0 then C.ids else []) := by
      by_cases h5 : flags &&& 5 ≠ 0
      · rcases h15 h5 with h1 | hx
        · rw [if_pos h5, if_pos h1]
        · exact absurd hx h4
      · have h1 : ¬flags &&& 1 ≠ 0 := fun h1x => h5 (h1_5 h1x)
        rw [if_neg h5, if_neg h1]
    by_cases h2 : flags &&& 2 ≠ 0
    · obtain ⟨bid, hB, hbid, hbc⟩ := inv.bHeap h2
      have hbid0 : bid ∉ al0.live := fun hm => absurd (inv.wf0 bid hm) (by omega)
      subst hB
      rw [if_pos h2] at hlive
      simp only [Loc.ids] at hlive
      rw [if_pos h2]
      simp only [freeLoc]
      refine ⟨?_, trivial⟩
      rw [hlive, ← hCpart]
      apply erase_append_fresh
      intro hm
      rcases List.mem_append.mp hm with hm | hm
      · exact hbid0 hm
      · by_cases h5 : flags &&& 5 ≠ 0
        · obtain ⟨cid, hC, -⟩ := inv.cHeap h5
          rw [if_pos h5, hC] at hm
          simp only [Loc.ids, List.mem_singleton] at hm
          exact hbc h5 cid hC hm
        · rw [if_neg h5] at hm
          simp at hm
    · rw [if_neg h2] at hlive ⊢
      simp only [List.append_nil] at hlive
      exact ⟨hlive.trans (by rw [hCpart]), rfl⟩

/-- Allocator correctness of the post-recursion continuation: statuses are
`0`/`-2`, `-2` exactly when a failure event occurs, and the live set returns
to the entry set `al0.live`. -/
theorem stage2Glue_alloc (T : List Int) (C B : Loc) (depth : Nat) (n k m : Int)
    (flags2 : Nat) (newfs : Int) (evsPre : List Ev) (res : Option SAResult) (r : SAResult)
    (al0 al3 : AllocSt)
    (hC1 : flags2 &&& 1 ≠ 0 → ∃ cid, C = Loc.heap cid ∧ al0.nextId ≤ cid)
    (h45 : flags2 &&& 4 ≠ 0 → flags2 &&& 5 ≠ 0 ∧ flags2 &&& 1 = 0 ∧ flags2 &&& 2 = 0)
    (h15 : flags2 &&& 5 ≠ 0 → flags2 &&& 1 ≠ 0 ∨ flags2 &&& 4 ≠ 0)
    (h1_5 : flags2 &&& 1 ≠ 0 → flags2 &&& 5 ≠ 0)
    (hwf0 : WFal al0) (hwf3 : WFal al3)
    (hlive3 : al3.live = al0.live ++ (if flags2 &&& 1 ≠ 0 then C.ids else []))
    (hnext3 : al0.nextId ≤ al3.nextId)
    (hpreNF : ∀ (t : BufTag) (s : Int) (d : Nat), Ev.allocFail t s d ∉ evsPre)
    (hres : ∀ r', res = some r' →
      (r'.status = 0 ∨ r'.status = -2) ∧
      (r'.status = -2 ↔ ∃ (t : BufTag) (s : Int) (d : Nat), Ev.allocFail t s d ∈ r'.evs) ∧
      r'.al.live = al3.live ∧ al3.nextId ≤ r'.al.nextId ∧ WFal r'.al)
    (h : stage2Glue T C B depth n k m flags2 newfs evsPre res = some r) :
    (r.status = 0 ∨ r.status = -2) ∧
    (r.status = -2 ↔ ∃ (t : BufTag) (s : Int) (d : Nat), Ev.allocFail t s d ∈ r.evs) ∧
    r.al.live = al0.live ∧ al0.nextId ≤ r.al.nextId := by
  unfold stage2Glue at h
  cases res with
  | none => exact absurd h (by simp)
  | some r' =>
    obtain ⟨hst, hiff, hliveR0, hnextR, hwfR⟩ := hres r' rfl
    have hliveR : r'.al.live = al0.live ++ (if flags2 &&& 1 ≠ 0 then C.ids else []) :=
      hliveR0.trans hlive3
    dsimp only at h
    split at h
    · rename_i hsne
      rw [Option.some.injEq] at h
      subst h
      have hs2 : r'.status = -2 := by
        rcases hst with h0 | h0
        · exact absurd h0 hsne
        · exact h0
      obtain ⟨t0, s0, d0, hm0⟩ := hiff.mp hs2
      refine ⟨Or.inr rfl, ⟨fun _ => ⟨t0, s0, d0, ?_⟩, fun _ => rfl⟩, ?_, ?_⟩
      · exact List.mem_append.mpr (Or.inl (List.mem_append.mpr (Or.inr hm0)))
      · by_cases h1 : flags2 &&& 1 ≠ 0
        · obtain ⟨cid, hC, hcid⟩ := hC1 h1
          subst hC
          rw [if_pos h1]
          simp only [freeLoc]
          rw [hliveR, if_pos h1]
          simp only [Loc.ids]
          exact erase_append_fresh _ _ (fun hm => absurd (hwf0 cid hm) (by omega))
        · rw [if_neg h1]
          dsimp only
          rw [hliveR, if_neg h1, List.append_nil]
      · by_cases h1 : flags2 &&& 1 ≠ 0
        · obtain ⟨cid, hC, -⟩ := hC1 h1
          subst hC
          rw [if_pos h1]
          simp only [freeLoc]
          omega
        · rw [if_neg h1]
          dsimp only
          omega
    · rename_i hsnn
      have hs0 : r'.status = 0 := not_ne_iff.mp hsnn
      have hnofailR : ∀ (t : BufTag) (s : Int) (d : Nat), Ev.allocFail t s d ∉ r'.evs := by
        intro t s d hm
        have h2 := hiff.mpr ⟨t, s, d, hm⟩
        rw [hs0] at h2
        exact absurd h2 (by decide)
      have hnofailAll : ∀ (t : BufTag) (s : Int) (d : Nat),
          Ev.allocFail t s d ∉ evsPre ++ r'.evs := by
        intro t s d hm
        rcases List.mem_append.mp hm with hm | hm
        · exact hpreNF t s d hm
        · exact hnofailR t s d hm
      split at h
      · rename_i memF alF evsF heq3
        rw [Option.some.injEq] at h
        subst h
        split at heq3
        · rename_i h4
          obtain ⟨-, h41, -⟩ := h45 h4
          split at heq3
          · exact absurd heq3 (by simp)
          · rename_i memx alx heqa
            obtain ⟨hlx, hnx⟩ := allocBuf_none_spec _ _ _ _ _ heqa
            simp only [Sum.inr.injEq, Prod.mk.injEq] at heq3
            obtain ⟨-, halF, hevsF⟩ := heq3
            refine ⟨Or.inr rfl, ⟨fun _ => ⟨.bufC, k, depth, ?_⟩, fun _ => rfl⟩, ?_, ?_⟩
            · refine List.mem_append.mpr (Or.inr ?_)
              rw [← hevsF]
              simp
            · rw [← halF, hlx, hliveR, if_neg (by omega), List.append_nil]
            · rw [← halF, hnx]
              omega
        · exact absurd heq3 (by simp)
      · rename_i C2 B2 mem9 al5 evs2 heq3
        have hCB2 : (C2 = C ∧ al5 = r'.al ∧ evs2 = ([] : List Ev) ∧ ¬flags2 &&& 4 ≠ 0) ∨
            (∃ cid2, C2 = Loc.heap cid2 ∧ al5.live = r'.al.live ++ [cid2] ∧
              cid2 = r'.al.nextId ∧ al5.nextId = r'.al.nextId + 1 ∧
              evs2 = [Ev.alloc .bufC k depth cid2] ∧ flags2 &&& 4 ≠ 0) := by
          split at heq3
          · rename_i h4
            split at heq3
            · rename_i cid2 memx alx heqa
              obtain ⟨hcid2, hlx, hnx⟩ := allocBuf_some_spec _ _ _ _ _ _ heqa
              simp only [Sum.inl.injEq, Prod.mk.injEq] at heq3
              obtain ⟨⟨hC2, hB2⟩, -, hal5, hevs2⟩ := heq3
              subst hC2 hal5 hevs2
              exact Or.inr ⟨cid2, rfl, hlx, hcid2, hnx, rfl, h4⟩
            · exact absurd heq3 (by simp)
          · rename_i h4
            simp only [Sum.inl.injEq, Prod.mk.injEq] at heq3
            obtain ⟨⟨hC2, hB2⟩, -, hal5, hevs2⟩ := heq3
            subst hC2 hal5 hevs2
            exact Or.inl ⟨rfl, rfl, rfl, h4⟩
        have hevs2NF : ∀ (t : BufTag) (s : Int) (d : Nat), Ev.allocFail t s d ∉ evs2 := by
          intro t s d hm
          rcases hCB2 with ⟨-, -, hevs2, -⟩ | ⟨cid2, -, -, -, -, hevs2, -⟩ <;>
            subst hevs2 <;> simp at hm
        split at h
        · rename_i memF alF evsF heq4
          rw [Option.some.injEq] at h
          subst h
          split at heq4
          · rename_i h2
            have hCB2' : C2 = C ∧ al5 = r'.al := by
              rcases hCB2 with ⟨hA, hB', -, -⟩ | ⟨cid2, -, -, -, -, -, h4⟩
              · exact ⟨hA, hB'⟩
              · obtain ⟨-, -, h42⟩ := h45 h4
                exact absurd h42 h2
            obtain ⟨hC2eq, hal5⟩ := hCB2'
            split at heq4
            · exact absurd heq4 (by simp)
            · rename_i memx alx heqa
              obtain ⟨hlx, hnx⟩ := allocBuf_none_spec _ _ _ _ _ heqa
              simp only [Sum.inr.injEq, Prod.mk.injEq] at heq4
              obtain ⟨-, halF, hevsF⟩ := heq4
              refine ⟨Or.inr rfl, ⟨fun _ => ⟨.bufB, k, depth, ?_⟩, fun _ => rfl⟩, ?_, ?_⟩
              · refine List.mem_append.mpr (Or.inr ?_)
                rw [← hevsF]
                simp
              · rw [← halF]
                by_cases h1 : flags2 &&& 1 ≠ 0
                · obtain ⟨cid, hC, hcid⟩ := hC1 h1
                  rw [if_pos h1, hC2eq, hC]
                  simp only [freeLoc]
                  rw [hlx, hal5, hliveR, if_pos h1, hC]
                  simp only [Loc.ids]
                  exact erase_append_fresh _ _ (fun hm => absurd (hwf0 cid hm) (by omega))
                · rw [if_neg h1]
                  dsimp only
                  rw [hlx, hal5, hliveR, if_neg h1, List.append_nil]
              · have hnn : alx.nextId = r'.al.nextId := by rw [hnx, hal5]
                rw [← halF]
                by_cases h1 : flags2 &&& 1 ≠ 0
                · obtain ⟨cid, hC, -⟩ := hC1 h1
                  rw [if_pos h1, hC2eq, hC]
                  simp only [freeLoc]
                  omega
                · rw [if_neg h1]
                  dsimp only
                  omega
          · exact absurd heq4 (by simp)
        · rename_i B3 mem10 al6 evs3 heq4
          rw [Option.some.injEq] at h
          subst h
          have hB3 : (B3 = B2 ∧ al6 = al5 ∧ evs3 = ([] : List Ev) ∧ ¬flags2 &&& 2 ≠ 0) ∨
              (∃ bid2, B3 = Loc.heap bid2 ∧ al6.live = al5.live ++ [bid2] ∧
                bid2 = al5.nextId ∧ al6.nextId = al5.nextId + 1 ∧
                evs3 = [Ev.alloc .bufB k depth bid2] ∧ flags2 &&& 2 ≠ 0) := by
            split at heq4
            · rename_i h2
              split at heq4
              · rename_i bid2 memx alx heqa
                obtain ⟨hbid2, hlx, hnx⟩ := allocBuf_some_spec _ _ _ _ _ _ heqa
                simp only [Sum.inl.injEq, Prod.mk.injEq] at heq4
                obtain ⟨hB3', -, hal6, hevs3⟩ := heq4
                subst hB3' hal6 hevs3
                exact Or.inr ⟨bid2, rfl, hlx, hbid2, hnx, rfl, h2⟩
              · exact absurd heq4 (by simp)
            · rename_i h2
              simp only [Sum.inl.injEq, Prod.mk.injEq] at heq4
              obtain ⟨hB3', -, hal6, hevs3⟩ := heq4
              subst hB3' hal6 hevs3
              exact Or.inl ⟨rfl, rfl, rfl, h2⟩
          have hevs3NF : ∀ (t : BufTag) (s : Int) (d : Nat), Ev.allocFail t s d ∉ evs3 := by
            intro t s d hm
            rcases hB3 with ⟨-, -, hevs3, -⟩ | ⟨bid2, -, -, -, -, hevs3, -⟩ <;>
              subst hevs3 <;> simp at hm
          have hCpart : ¬flags2 &&& 4 ≠ 0 →
              (if flags2 &&& 1 ≠ 0 then C.ids else []) =
              (if flags2 &&& 5 ≠ 0 then C.ids else []) := by
            intro h4
            by_cases h5 : flags2 &&& 5 ≠ 0
            · rcases h15 h5 with h1 | h4x
              · rw [if_pos h1, if_pos h5]
              · exact absurd h4x h4
            · have h1 : ¬flags2 &&& 1 ≠ 0 := fun h1x => h5 (h1_5 h1x)
              rw [if_neg h1, if_neg h5]
          have hinv : CBInv C2 B3 flags2 al0 al6 := by
            rcases hCB2 with ⟨hC2eq, hal5, hevs2, h4⟩ |
              ⟨cid2, hC2eq, hl5, hcid2, hn5, hevs2, h4⟩
            · rcases hB3 with ⟨hB3eq, hal6, hevs3, h2⟩ |
                ⟨bid2, hB3eq, hl6, hbid2, hn6, hevs3, h2⟩
              · subst hal6 hal5
                refine ⟨?_, by omega, ?_, hwf0, ?_, ?_⟩
                · rw [hliveR, if_neg h2, List.append_nil, hC2eq, hCpart h4]
                · intro id hid
                  exact lt_of_lt_of_le (hwfR id hid) (by omega)
                · intro h5
                  rcases h15 h5 with h1 | h4x
                  · obtain ⟨cid, hC, hcid⟩ := hC1 h1
                    exact ⟨cid, by rw [hC2eq, hC], hcid⟩
                  · exact absurd h4x h4
                · intro h2x
                  exact absurd h2x h2
              · subst hal5
                refine ⟨?_, by omega, ?_, hwf0, ?_, ?_⟩
                · rw [hl6, hliveR, hC2eq, hB3eq]
                  simp only [Loc.ids_heap]
                  rw [if_pos h2, hCpart h4]
                · intro id hid
                  rw [hl6] at hid
                  rcases List.mem_append.mp hid with hid | hid
                  · exact lt_of_lt_of_le (hwfR id hid) (by omega)
                  · simp only [List.mem_singleton] at hid
                    omega
                · intro h5
                  rcases h15 h5 with h1 | h4x
                  · obtain ⟨cid, hC, hcid⟩ := hC1 h1
                    exact ⟨cid, by rw [hC2eq, hC], hcid⟩
                  · exact absurd h4x h4
                · intro _
                  refine ⟨bid2, hB3eq, by omega, ?_⟩
                  intro h5x cid' hcc
                  rcases h15 h5x with h1 | h4x
                  · obtain ⟨cid, hC, hcid⟩ := hC1 h1
                    rw [hC2eq, hC] at hcc
                    have hcc' : cid = cid' := by injection hcc
                    subst hcc'
                    have hmem : cid ∈ al3.live := by
                      rw [hlive3, if_pos h1, hC]
                      simp [Loc.ids]
                    have := hwf3 cid hmem
                    omega
                  · exact absurd h4x h4
            · obtain ⟨h5', h41, h42⟩ := h45 h4
              rcases hB3 with ⟨hB3eq, hal6, hevs3, h2⟩ |
                ⟨bid2, -, -, -, -, -, h2⟩
              · subst hal6
                refine ⟨?_, by omega, ?_, hwf0, ?_, ?_⟩
                · rw [hl5, hliveR, if_neg (by omega), List.append_nil, hC2eq,
                    if_pos h5', if_neg h2]
                  simp [Loc.ids_heap]
                · intro id hid
                  rw [hl5, hliveR, if_neg (by omega), List.append_nil] at hid
                  rcases List.mem_append.mp hid with hid | hid
                  · exact lt_of_lt_of_le (hwf0 id hid) (by omega)
                  · simp only [List.mem_singleton] at hid
                    omega
                · intro _
                  exact ⟨cid2, hC2eq, by omega⟩
                · intro h2x
                  exact absurd h2x h2
              · exact absurd h42 h2
          have hfin := finishSA_alloc T C2 B3 flags2 n k m depth mem10 al6 al0 hinv
          refine ⟨Or.inl rfl, ⟨fun h0 => absurd h0 (by simp), ?_⟩, hfin.1, ?_⟩
          · intro hex
            obtain ⟨t, s, d, hm⟩ := hex
            simp only [List.mem_append] at hm
            rcases hm with ((((hm | hm) | hm) | hm) | hm)
            · exact absurd hm (hpreNF t s d)
            · exact absurd hm (hnofailR t s d)
            · exact absurd hm (hevs2NF t s d)
            · exact absurd hm (hevs3NF t s d)
            · exact absurd hm (hfin.2.2 t s d)
          · rw [hfin.2.1]
            exact hinv.next_le

theorem allocFail_not_preRec (C B : Loc) (flags : Nat) (al : AllocSt) (d : Nat) :
    (∀ (t : BufTag) (s : Int) (d' : Nat),
      Ev.allocFail t s d' ∉ (preRecFrees C B flags al d).2.1) ∧
    (∀ (t : BufTag) (s : Int) (d' : Nat),
      Ev.allocFail t s d' ∉ (preRecFrees C B flags al d).2.2) := by
  unfold preRecFrees
  dsimp only
  exact ⟨allocFail_not_iteFree _ _ _ _, allocFail_not_iteFree _ _ _ _⟩

theorem preRecFrees_spec (C B : Loc) (flags : Nat) (al0 al : AllocSt) (d : Nat)
    (inv : CBInv C B flags al0 al)
    (h45 : flags &&& 4 ≠ 0 → flags &&& 5 ≠ 0 ∧ flags &&& 1 = 0)
    (h15 : flags &&& 5 ≠ 0 → flags &&& 1 ≠ 0 ∨ flags &&& 4 ≠ 0)
    (h1_5 : flags &&& 1 ≠ 0 → flags &&& 5 ≠ 0) :
    (preRecFrees C B flags al d).1.live =
      al0.live ++ (if flags &&& 1 ≠ 0 then C.ids else []) ∧
    (preRecFrees C B flags al d).1.nextId = al.nextId := by
  unfold preRecFrees
  dsimp only
  exact preRec_free C B flags al0 al d inv h45 h15 h1_5

/-- Allocator correctness of `computeSA`: a completed run returns `0` or
`-2`, returns `-2` exactly when some allocation failure event occurred
(including inside the recursion), and restores the caller's live heap-block
set (everything allocated during the invocation is freed on every path). -/
theorem computeSA_alloc_master (fuel : Nat) :
    ∀ (depth : Nat) (T : List Int) (mem : Mem) (al : AllocSt) (fs n k cs : Int)
      (r : SAResult), WFal al →
      computeSA fuel depth T mem al fs n k cs = some r →
      (r.status = 0 ∨ r.status = -2) ∧
      (r.status = -2 ↔ ∃ (t : BufTag) (s : Int) (d : Nat), Ev.allocFail t s d ∈ r.evs) ∧
      r.al.live = al.live ∧ al.nextId ≤ r.al.nextId := by
  induction fuel with
  | zero =>
    intro depth T mem al fs n k cs r hwf h
    exact absurd h (by simp [computeSA])
  | succ fuel ih =>
    intro depth T mem al fs n k cs r hwf h
    obtain ⟨hc5, hb2, h45b, h14b, h15b, -⟩ := wsPlan_bits n fs k
    unfold computeSA at h
    dsimp only at h
    split at h
    · rename_i memF alF evsF heq1
      rw [Option.some.injEq] at h
      subst h
      obtain ⟨hl, hn, hfail⟩ := allocCB_none_spec n fs k mem al depth memF alF evsF hwf heq1
      exact ⟨Or.inr rfl, ⟨fun _ => hfail, fun _ => rfl⟩, hl, hn⟩
    · rename_i C B mem1 al1 evs0 heq1
      obtain ⟨inv1, hnf0⟩ := allocCB_some_spec n fs k mem al depth C B mem1 al1 evs0 hwf heq1
      split at h
      · rename_i memF alF evsF heq2
        rw [Option.some.injEq] at h
        subst h
        obtain ⟨hl, hn, hfail⟩ :=
          sortStep_alloc_inr _ _ _ _ _ _ _ _ _ _ _ _ _ _ _ _ inv1 heq2
        refine ⟨Or.inr rfl, ⟨fun _ => ?_, fun _ => rfl⟩, hl, hn⟩
        obtain ⟨t, s, d, hm⟩ := hfail
        exact ⟨t, s, d, List.mem_append.mpr (Or.inr hm)⟩
      · rename_i mem4 al2 evs1 name heq2
        obtain ⟨hl2, hn2, hnf1⟩ :=
          sortStep_alloc_inl _ _ _ _ _ _ _ _ _ _ _ _ _ _ _ _ inv1.wfal heq2
        have inv2 := CBInv_transport C B _ al al1 al2 inv1 hl2 hn2
        split at h
        · -- name < m : recursion path
          have h45' : (wsPlan n fs k).flags &&& 4 ≠ 0 →
              (wsPlan n fs k).flags &&& 5 ≠ 0 ∧ (wsPlan n fs k).flags &&& 1 = 0 :=
            fun h4 => ⟨(h45b h4).1, (h45b h4).2.1⟩
          have h1_5' : (wsPlan n fs k).flags &&& 1 ≠ 0 →
              (wsPlan n fs k).flags &&& 5 ≠ 0 := fun h1 => (h14b h1).1
          have hpre := preRecFrees_spec C B ((wsPlan n fs k).flags) al al2 depth inv2
            h45' h15b h1_5'
          have hwf3' : WFal (preRecFrees C B ((wsPlan n fs k).flags) al2 depth).1 := by
            intro id hid
            rw [hpre.1] at hid
            rw [hpre.2]
            rcases List.mem_append.mp hid with hid | hid
            · exact lt_of_lt_of_le (hwf id hid) inv2.next_le
            · by_cases h1 : (wsPlan n fs k).flags &&& 1 ≠ 0
              · obtain ⟨cid, hC, hcid⟩ := inv2.cHeap (h1_5' h1)
                rw [if_pos h1, hC] at hid
                simp only [Loc.ids_heap, List.mem_singleton] at hid
                subst hid
                apply inv2.wfal
                rw [inv2.live_eq, if_pos (h1_5' h1), hC]
                simp [Loc.ids_heap]
              · rw [if_neg h1] at hid
                simp at hid
          have hnfc := nf_flags_cases ((wsPlan n fs k).flags) k name
            (n + fs - 2 * (stage1Scan T B n (getBuckets C B k true (getCounts T C n k mem1))).m)
          have hpreNFgen : ∀ (evR : Ev) (ht : ∀ (t : BufTag) (s : Int) (d : Nat),
              evR ≠ Ev.allocFail t s d) (t : BufTag) (s : Int) (d : Nat),
              Ev.allocFail t s d ∉
                evs0 ++ evs1 ++ (preRecFrees C B ((wsPlan n fs k).flags) al2 depth).2.1 ++
                  (preRecFrees C B ((wsPlan n fs k).flags) al2 depth).2.2 ++ [evR] := by
            intro evR ht t s d hm
            simp only [List.mem_append, List.mem_singleton] at hm
            rcases hm with (((hm | hm) | hm) | hm) | hm
            · exact hnf0 t s d hm
            · exact hnf1 t s d hm
            · exact (allocFail_not_preRec _ _ _ _ _).1 t s d hm
            · exact (allocFail_not_preRec _ _ _ _ _).2 t s d hm
            · exact ht t s d hm.symm
          rcases hnfc with hF | hF
          · rw [hF] at h
            refine stage2Glue_alloc _ _ _ _ _ _ _ _ _ _ _ _ al _
              (fun h1 => inv2.cHeap (h1_5' h1)) (fun h4 => (h45b h4).imp_right
                (fun hx => ⟨hx.1, hx.2.1⟩))
              h15b h1_5' hwf hwf3' hpre.1 (by rw [hpre.2]; exact inv2.next_le)
              (hpreNFgen _ (by intro t s d hx; exact Ev.noConfusion hx)) ?_ h
            intro r' hr'
            obtain ⟨a, b, c, d⟩ := ih _ _ _ _ _ _ _ _ r' hwf3' hr'
            exact ⟨a, b, c, d, fun id hid => lt_of_lt_of_le (hwf3' id (c ▸ hid)) d⟩
          · rw [hF] at h
            have e5 : ((wsPlan n fs k).flags ||| 8) &&& 5 = (wsPlan n fs k).flags &&& 5 :=
              or8_and _ _ (by decide)
            have e4 : ((wsPlan n fs k).flags ||| 8) &&& 4 = (wsPlan n fs k).flags &&& 4 :=
              or8_and _ _ (by decide)
            have e2 : ((wsPlan n fs k).flags ||| 8) &&& 2 = (wsPlan n fs k).flags &&& 2 :=
              or8_and _ _ (by decide)
            have e1 : ((wsPlan n fs k).flags ||| 8) &&& 1 = (wsPlan n fs k).flags &&& 1 :=
              or8_and _ _ (by decide)
            refine stage2Glue_alloc _ _ _ _ _ _ _ _ _ _ _ _ al _
              (fun h1 => inv2.cHeap (h1_5' (e1 ▸ h1)))
              (fun h4 => by
                rw [e5, e1, e2]
                have := h45b (e4 ▸ h4)
                exact ⟨this.1, this.2.1, this.2.2.1⟩)
              (fun h5 => by
                rw [e1, e4]
                exact h15b (e5 ▸ h5))
              (fun h1 => by
                rw [e5]
                exact h1_5' (e1 ▸ h1))
              hwf hwf3' (by rw [e1]; exact hpre.1)
              (by rw [hpre.2]; exact inv2.next_le)
              (hpreNFgen _ (by intro t s d hx; exact Ev.noConfusion hx)) ?_ h
            intro r' hr'
            obtain ⟨a, b, c, d⟩ := ih _ _ _ _ _ _ _ _ r' hwf3' hr'
            exact ⟨a, b, c, d, fun id hid => lt_of_lt_of_le (hwf3' id (c ▸ hid)) d⟩
        · -- name = m : straight to Stage 3
          rw [Option.some.injEq] at h
          subst h
          have hfin := finishSA_alloc T C B ((wsPlan n fs k).flags) n k
            ((stage1Scan T B n (getBuckets C B k true (getCounts T C n k mem1))).m)
            depth mem4 al2 al inv2
          refine ⟨Or.inl rfl, ⟨fun h0 => absurd h0 (by simp), ?_⟩, hfin.1, ?_⟩
          · intro hex
            obtain ⟨t, s, d, hm⟩ := hex
            simp only [List.mem_append] at hm
            rcases hm with (hm | hm) | hm
            · exact absurd hm (hnf0 t s d)
            · exact absurd hm (hnf1 t s d)
            · exact absurd hm (hfin.2.2 t s d)
          · rw [hfin.2.1]
            exact inv2.next_le

/-- C4: Confirmed.  For any well-formed allocator state, a completed run of
`computeSA` returns status `0` or `-2`; it returns `-2` exactly when some
heap allocation failed during the call (including inside the recursive
call); and the live heap-block set is restored to the caller's on every
path, i.e. every buffer allocated during the invocation is freed before
returning, on success and on every allocation-failure path. -/
theorem C4_alloc_correct (fuel depth : Nat) (T : List Int) (mem : Mem) (al : AllocSt)
    (fs n k cs : Int) (r : SAResult) (hwf : WFal al)
    (h : computeSA fuel depth T mem al fs n k cs = some r) :
    (r.status = 0 ∨ r.status = -2) ∧
    (r.status = -2 ↔ ∃ (t : BufTag) (s : Int) (d : Nat), Ev.allocFail t s d ∈ r.evs) ∧
    r.al.live = al.live ∧ al.nextId ≤ r.al.nextId :=
  computeSA_alloc_master fuel depth T mem al fs n k cs r hwf h

/-- Witness for C4: the run on `T = [0]` (`n = k = 1`, `fs = 0`, regime
`flags = 3`, which heap-allocates both `C` and `B` and frees them at the
end). -/
theorem C4_alloc_witness :
    (((computeSA 2 0 [0] mem0 al0 0 1 1 1).getD ⟨0, mem0, al0, []⟩).status = 0 ∨
      ((computeSA 2 0 [0] mem0 al0 0 1 1 1).getD ⟨0, mem0, al0, []⟩).status = -2) ∧
    (((computeSA 2 0 [0] mem0 al0 0 1 1 1).getD ⟨0, mem0, al0, []⟩).status = -2 ↔
      ∃ (t : BufTag) (s : Int) (d : Nat),
        Ev.allocFail t s d ∈ ((computeSA 2 0 [0] mem0 al0 0 1 1 1).getD ⟨0, mem0, al0, []⟩).evs) ∧
    ((computeSA 2 0 [0] mem0 al0 0 1 1 1).getD ⟨0, mem0, al0, []⟩).al.live = al0.live ∧
    al0.nextId ≤ ((computeSA 2 0 [0] mem0 al0 0 1 1 1).getD ⟨0, mem0, al0, []⟩).al.nextId :=
  C4_alloc_correct 2 0 [0] mem0 al0 0 1 1 1 _
    (fun id hid => absurd hid (by simp [al0])) rfl

/-- With a small alphabet (`k ≤ 256`) the plan always heap-allocates `C`,
heap-allocates `B` exactly when the slack cannot hold it, and never chooses
the heap variant of the two-pass buffer `D` when `fs = 2n`. -/
theorem wsPlan_k256 (n fs k : Int) (hk1 : 1 ≤ k) (hk : k ≤ 256) (hfs : fs = 2 * n) :
    (wsPlan n fs k).cSpec = BufSpec.heapNew ∧
    ((wsPlan n fs k).bSpec = BufSpec.heapNew ↔ fs < k) ∧
    (wsPlan n fs k).flags &&& 16 = 0 := by
  unfold wsPlan
  dsimp only
  by_cases hTP : n ≤ 1073741823 ∧ 2 ≤ n / k
  · have hn2k : 2 * k ≤ n := by
      have h2 := hTP.2
      rw [Int.le_ediv_iff_mul_le (by omega : 0 < k)] at h2
      omega
    rw [if_pos hTP, if_pos hk, if_pos (by omega : k ≤ fs)]
    rw [if_pos (by decide : (1 : Nat) &&& 1 ≠ 0), if_pos (by omega : 2 * k ≤ fs - k)]
    refine ⟨rfl, ?_, by simp <;> decide⟩
    constructor
    · intro hx
      exact absurd hx (by simp)
    · intro hx
      omega
  · rw [if_neg hTP, if_pos hk]
    by_cases hB : k ≤ fs
    · rw [if_pos hB]
      refine ⟨rfl, ?_, by simp <;> decide⟩
      constructor
      · intro hx
        exact absurd hx (by simp)
      · intro hx
        omega
    · rw [if_neg hB]
      exact ⟨rfl, ⟨fun _ => by omega, fun _ => rfl⟩, by simp <;> decide⟩

theorem stage2Glue_evs_prefix (T : List Int) (C B : Loc) (depth : Nat) (n k m : Int)
    (flags2 : Nat) (newfs : Int) (evsPre : List Ev) (res : Option SAResult) (r : SAResult)
    (h : stage2Glue T C B depth n k m flags2 newfs evsPre res = some r) :
    ∃ rest, r.evs = evsPre ++ rest := by
  unfold stage2Glue at h
  cases res with
  | none => exact absurd h (by simp)
  | some r' =>
    dsimp only at h
    split at h
    · rw [Option.some.injEq] at h
      subst h
      exact ⟨_, by rw [List.append_assoc]⟩
    · split at h
      · rename_i memF alF evsF heq3
        rw [Option.some.injEq] at h
        subst h
        exact ⟨_, by rw [List.append_assoc]⟩
      · rename_i C2 B2 mem9 al5 evs2 heq3
        split at h
        · rename_i memF alF evsF heq4
          rw [Option.some.injEq] at h
          subst h
          exact ⟨_, by rw [List.append_assoc, List.append_assoc]⟩
        · rename_i B3 mem10 al6 evs3 heq4
          rw [Option.some.injEq] at h
          subst h
          exact ⟨_, by rw [List.append_assoc, List.append_assoc, List.append_assoc]⟩

theorem allocCB_bufC_mem (n fs k : Int) (mem : Mem) (al : AllocSt) (depth : Nat)
    (C B : Loc) (mem1 : Mem) (al1 : AllocSt) (evs0 : List Ev)
    (hc : (wsPlan n fs k).cSpec = BufSpec.heapNew)
    (h : allocCB (wsPlan n fs k) mem al k depth = (some (C, B), mem1, al1, evs0)) :
    ∃ id, Ev.alloc .bufC k depth id ∈ evs0 := by
  unfold allocCB at h
  split at h
  · rename_i co bo heqc heqb
    rw [hc] at heqc
    exact absurd heqc (by simp)
  · rename_i co heqc heqb
    rw [hc] at heqc
    exact absurd heqc (by simp)
  · rename_i co heqc heqb
    rw [hc] at heqc
    exact absurd heqc (by simp)
  · rename_i bs heqc
    split at h
    · exact absurd h (by simp)
    · rename_i cid memx alx heqa
      split at h
      · simp only [Prod.mk.injEq, Option.some.injEq] at h
        obtain ⟨-, -, -, hevs⟩ := h
        subst hevs
        exact ⟨cid, by simp⟩
      · simp only [Prod.mk.injEq, Option.some.injEq] at h
        obtain ⟨-, -, -, hevs⟩ := h
        subst hevs
        exact ⟨cid, by simp⟩
      · split at h
        · simp only [Prod.mk.injEq, Option.some.injEq] at h
          obtain ⟨-, -, -, hevs⟩ := h
          subst hevs
          exact ⟨cid, by simp⟩
        · exact absurd h (by simp)
  · rename_i heqc
    exact absurd h (by simp)

/-- C8: Refuted as stated, then corrected.  The spec claims that with
`fs = 2n` and `k ≤ 256` the routine performs no heap allocation.  In fact
`k ≤ 256` forces the bucket-count array `C` onto the heap
(sais.c:364-366), unconditionally; additionally `B` is heap-allocated
exactly when the slack cannot hold it (`fs < k`), and every successful
top-level run records a `C` allocation event.  What is true on the heap
side is only that the two-pass scratch `D` is never heap-allocated in this
regime (`flags & 16` stays clear; the plan picks the in-`SA` variant,
bit 32, whenever two-pass applies). -/
theorem C8_workspace_corrected (n fs k : Int) (hk1 : 1 ≤ k) (hk : k ≤ 256)
    (hfs : fs = 2 * n) (hn : 1 ≤ n) :
    (wsPlan n fs k).cSpec = BufSpec.heapNew ∧
    ((wsPlan n fs k).bSpec = BufSpec.heapNew ↔ fs < k) ∧
    (wsPlan n fs k).flags &&& 16 = 0 ∧
    (∀ (fuel : Nat) (T : List Int) (mem : Mem) (al : AllocSt) (cs : Int) (r : SAResult),
      computeSA fuel 0 T mem al fs n k cs = some r → r.status = 0 →
      ∃ id, Ev.alloc .bufC k 0 id ∈ r.evs) := by
  obtain ⟨hcS, hbS, h16⟩ := wsPlan_k256 n fs k hk1 hk hfs
  refine ⟨hcS, hbS, h16, ?_⟩
  intro fuel T mem al cs r h hs
  cases fuel with
  | zero => exact absurd h (by simp [computeSA])
  | succ fuel =>
    unfold computeSA at h
    dsimp only at h
    split at h
    · rename_i memF alF evsF heq1
      rw [Option.some.injEq] at h
      subst h
      exact absurd hs (by simp)
    · rename_i C B mem1 al1 evs0 heq1
      obtain ⟨cid, hmem⟩ := allocCB_bufC_mem n fs k mem al 0 C B mem1 al1 evs0 hcS heq1
      split at h
      · rw [Option.some.injEq] at h
        subst h
        exact absurd hs (by simp)
      · rename_i mem4 al2 evs1 name heq2
        split at h
        · obtain ⟨rest, hrest⟩ := stage2Glue_evs_prefix _ _ _ _ _ _ _ _ _ _ _ _ h
          refine ⟨cid, ?_⟩
          rw [hrest]
          simp only [List.mem_append]
          exact Or.inl (Or.inl (Or.inl (Or.inl (Or.inl hmem))))
        · rw [Option.some.injEq] at h
          subst h
          refine ⟨cid, ?_⟩
          simp only [List.mem_append]
          exact Or.inl (Or.inl hmem)

/-- Counterexample to C8 as written: `T = [1,0]` with `n = 2`, `k = 2` and
`fs = 2n = 4` satisfies the claim's preconditions, the run succeeds, and
its event trace contains the heap allocation of `C`. -/
theorem C8_workspace_counterexample :
    (computeSA 3 0 [1, 0] mem0 al0 4 2 2 1).map SAResult.status = some 0 ∧
    Ev.alloc .bufC 2 0 0 ∈
      ((computeSA 3 0 [1, 0] mem0 al0 4 2 2 1).map SAResult.evs).getD [] := by
  refine ⟨by decide, by decide⟩

/-- Witness for C8 (corrected) at `n = 2`, `fs = 4`, `k = 2`. -/
theorem C8_workspace_witness :
    ((1 : Int) ≤ 2 ∧ (2 : Int) ≤ 256 ∧ (4 : Int) = 2 * 2 ∧ (1 : Int) ≤ 2) ∧
    ((wsPlan 2 4 2).cSpec = BufSpec.heapNew ∧
     ((wsPlan 2 4 2).bSpec = BufSpec.heapNew ↔ (4 : Int) < 2) ∧
     (wsPlan 2 4 2).flags &&& 16 = 0 ∧
     (∀ (fuel : Nat) (T : List Int) (mem : Mem) (al : AllocSt) (cs : Int) (r : SAResult),
       computeSA fuel 0 T mem al 4 2 2 cs = some r → r.status = 0 →
       ∃ id, Ev.alloc .bufC 2 0 id ∈ r.evs)) :=
  ⟨⟨by decide, by decide, by decide, by decide⟩,
   C8_workspace_corrected 2 4 2 (by decide) (by decide) (by decide) (by decide)⟩

/-- C10: Confirmed.  Whenever the two-pass bits (16 or 32) are set, the
workspace plan and entry allocation give `C ≠ B` (so the
`assert(C != B)` at the entry of `LMSsort2` holds), and in the in-`SA`
variant (bit 32) the buffer `B` is an `SA`-tail whose `2k`-cell `D` region
`[bo - 2k, bo)` lies entirely inside `SA[n .. n+fs)`, disjoint from
`SA[0..n)`, `B` and `C`; in the heap variant (bit 16) `D` is a fresh heap
block, disjoint by construction. -/
theorem C10_twopass_buffers (n fs k : Int) (mem : Mem) (al : AllocSt) (depth : Nat)
    (C B : Loc) (hk : 1 ≤ k)
    (h48 : (wsPlan n fs k).flags &&& 48 ≠ 0)
    (h : (allocCB (wsPlan n fs k) mem al k depth).1 = some (C, B)) :
    C ≠ B ∧
    ((wsPlan n fs k).flags &&& 32 ≠ 0 →
      ∃ bo, B = Loc.sa bo ∧ n ≤ bo - 2 * k ∧ bo + k ≤ n + fs) := by
  unfold wsPlan at h h48 ⊢
  dsimp only at h h48 ⊢
  by_cases hA : k ≤ 256
  · by_cases hB2 : k ≤ fs
    · rw [if_pos hA, if_pos hB2] at h h48 ⊢
      by_cases hTP : n ≤ 1073741823 ∧ 2 ≤ n / k
      · rw [if_pos hTP] at h h48 ⊢
        dsimp only at h h48 ⊢
        rw [if_pos (by decide : ¬(1 : Nat) &&& 1 = 0)] at h h48 ⊢
        by_cases hD : 2 * k ≤ fs - k
        · rw [if_pos hD] at h h48 ⊢
          dsimp only at h h48 ⊢
          unfold allocCB at h
          dsimp only at h
          split at h
          · simp at h
          · rename_i cid memx alx heqa
            simp only [Option.some.injEq, Prod.mk.injEq] at h
            obtain ⟨hC, hB⟩ := h
            subst hC hB
            refine ⟨by simp, ?_⟩
            intro _
            exact ⟨n + fs - k, rfl, by omega, by omega⟩
        · rw [if_neg hD] at h h48 ⊢
          dsimp only at h h48 ⊢
          unfold allocCB at h
          dsimp only at h
          split at h
          · simp at h
          · rename_i cid memx alx heqa
            simp only [Option.some.injEq, Prod.mk.injEq] at h
            obtain ⟨hC, hB⟩ := h
            subst hC hB
            exact ⟨by simp, fun h32 => absurd (by decide : (17 : Nat) &&& 32 = 0) h32⟩
      · rw [if_neg hTP] at h h48 ⊢
        dsimp only at h h48 ⊢
        exact absurd (by decide : (1 : Nat) &&& 48 = 0) h48
    · rw [if_pos hA, if_neg hB2] at h h48 ⊢
      by_cases hTP : n ≤ 1073741823 ∧ 2 ≤ n / k
      · rw [if_pos hTP] at h h48 ⊢
        dsimp only at h h48 ⊢
        rw [if_pos (by decide : ¬(3 : Nat) &&& 1 = 0),
          if_neg (by omega : ¬2 * k ≤ fs - k)] at h h48 ⊢
        dsimp only at h h48 ⊢
        unfold allocCB at h
        dsimp only at h
        split at h
        · simp at h
        · rename_i cid memx alx heqa
          obtain ⟨hcid, hl1, hn1⟩ := allocBuf_some_spec _ _ _ _ _ _ heqa
          split at h
          · rename_i bid memy aly heqb
            obtain ⟨hbid, hl2, hn2⟩ := allocBuf_some_spec _ _ _ _ _ _ heqb
            simp only [Option.some.injEq, Prod.mk.injEq] at h
            obtain ⟨hC, hB⟩ := h
            subst hC hB
            refine ⟨?_, fun h32 => absurd (by decide : (19 : Nat) &&& 32 = 0) h32⟩
            intro heq
            have : cid = bid := by injection heq
            omega
          · simp at h
      · rw [if_neg hTP] at h h48 ⊢
        dsimp only at h h48 ⊢
        exact absurd (by decide : (3 : Nat) &&& 48 = 0) h48
  · by_cases hB2 : k ≤ fs
    · by_cases hC2 : k ≤ fs - k
      · rw [if_neg hA, if_pos hB2, if_pos hC2] at h h48 ⊢
        by_cases hTP : n ≤ 1073741823 ∧ 2 ≤ n / k
        · rw [if_pos hTP] at h h48 ⊢
          dsimp only at h h48 ⊢
          rw [if_neg (by decide : ¬¬(0 : Nat) &&& 1 = 0)] at h h48 ⊢
          by_cases hE : 2 * k ≤ fs - 2 * k
          · rw [if_pos ⟨rfl, hE⟩] at h h48 ⊢
            dsimp only at h h48 ⊢
            unfold allocCB at h
            dsimp only at h
            simp only [Option.some.injEq, Prod.mk.injEq] at h
            obtain ⟨hC, hB⟩ := h
            subst hC hB
            refine ⟨?_, ?_⟩
            · intro heq
              have : n + fs - k = n + fs - 2 * k := by injection heq
              omega
            · intro _
              exact ⟨n + fs - 2 * k, rfl, by omega, by omega⟩
          · rw [if_neg (fun hc => hE hc.2)] at h h48 ⊢
            dsimp only at h h48 ⊢
            exact absurd (by decide : (0 : Nat) &&& 48 = 0) h48
        · rw [if_neg hTP] at h h48 ⊢
          dsimp only at h h48 ⊢
          exact absurd (by decide : (0 : Nat) &&& 48 = 0) h48
      · by_cases hK : k ≤ 1024
        · rw [if_neg hA, if_pos hB2, if_neg hC2, if_pos hK] at h h48 ⊢
          by_cases hTP : n ≤ 1073741823 ∧ 2 ≤ n / k
          · rw [if_pos hTP] at h h48 ⊢
            dsimp only at h h48 ⊢
            rw [if_neg (by decide : ¬¬(2 : Nat) &&& 1 = 0),
              if_neg (by simp : ¬((2 : Nat) = 0 ∧ 2 * k ≤ fs - 2 * k))] at h h48 ⊢
            exact absurd (by decide : (2 : Nat) &&& 48 = 0) h48
          · rw [if_neg hTP] at h h48 ⊢
            exact absurd (by decide : (2 : Nat) &&& 48 = 0) h48
        · rw [if_neg hA, if_pos hB2, if_neg hC2, if_neg hK] at h h48 ⊢
          by_cases hTP : n ≤ 1073741823 ∧ 2 ≤ n / k
          · rw [if_pos hTP] at h h48 ⊢
            dsimp only at h h48 ⊢
            rw [if_neg (by decide : ¬¬(8 : Nat) &&& 1 = 0),
              if_neg (by simp : ¬((8 : Nat) = 0 ∧ 2 * k ≤ fs - 2 * k))] at h h48 ⊢
            exact absurd (by decide : (8 : Nat) &&& 48 = 0) h48
          · rw [if_neg hTP] at h h48 ⊢
            exact absurd (by decide : (8 : Nat) &&& 48 = 0) h48
    · rw [if_neg hA, if_neg hB2] at h h48 ⊢
      by_cases hTP : n ≤ 1073741823 ∧ 2 ≤ n / k
      · rw [if_pos hTP] at h h48 ⊢
        dsimp only at h h48 ⊢
        rw [if_neg (by decide : ¬¬(12 : Nat) &&& 1 = 0),
          if_neg (by simp : ¬((12 : Nat) = 0 ∧ 2 * k ≤ fs - 2 * k))] at h h48 ⊢
        exact absurd (by decide : (12 : Nat) &&& 48 = 0) h48
      · rw [if_neg hTP] at h h48 ⊢
        exact absurd (by decide : (12 : Nat) &&& 48 = 0) h48

/-- Witness for C10 at `n = 4`, `fs = 8`, `k = 2` (regime `flags = 33`):
`C` is a fresh heap block, `B` the `SA`-tail at offset 10, and the `D`
region `[6, 10)` lies inside `SA[4 .. 12)`. -/
theorem C10_twopass_witness :
    ((1 : Int) ≤ 2 ∧ (wsPlan 4 8 2).flags &&& 48 ≠ 0 ∧
      (allocCB (wsPlan 4 8 2) mem0 al0 2 0).1 = some (Loc.heap 0, Loc.sa 10)) ∧
    (Loc.heap 0 ≠ Loc.sa 10 ∧
      ((wsPlan 4 8 2).flags &&& 32 ≠ 0 →
        ∃ bo, Loc.sa 10 = Loc.sa bo ∧ (4 : Int) ≤ bo - 2 * 2 ∧ bo + 2 ≤ 4 + 8)) :=
  ⟨⟨by decide, by decide, by rfl⟩,
   C10_twopass_buffers 4 8 2 mem0 al0 0 (Loc.heap 0) (Loc.sa 10) (by decide) (by decide)
     (by rfl)⟩
